import Mathlib

/-!
Verification of the core of `allatom.py`: the layered directory
overlay/merge algorithm (`overlay_directories`, `should_ignore`) and the
protocol execution state machine (`Protocol`, `run_protocol`).

The filesystem is shallowly embedded as an association list from absolute
paths (lists of name components) to entries (directories, or files with
byte content modelled as `List Char`).  The enumeration order of the list
models the order in which `pathlib.Path.glob('**/*')` yields entries: a
well-formed snapshot (`wfB`) lists every entry after its parent directory,
which is the guarantee a real recursive directory walk provides.

Python exceptions are modelled by the `PyErr` type; functions that can
raise return `Except PyErr _`, and the stateful protocol runner returns
the mutated filesystem together with the outcome, since a raised
exception does not roll back filesystem effects.
-/

set_option autoImplicit false
set_option linter.unusedVariables false

/-- A single path component (file or directory name), as characters. -/
abbrev Name := List Char

/-- An absolute path: the list of its components from the filesystem root. -/
abbrev FPath := List Name

/-- An exclusion motif, matched as a literal substring of the rendered path. -/
abbrev Motif := List Char

/-- A filesystem entry: a directory, or a regular file with its content. -/
inductive Entry where
  | dir : Entry
  | file (content : List Char) : Entry
deriving DecidableEq

/-- A filesystem snapshot: an association list from paths to entries,
in directory-walk order (parents before children for well-formed snapshots). -/
abbrev FS := List (FPath × Entry)

/-- Python exceptions raised by the modelled code.  `notADirectory` carries
the list of paths named in the exception message (empty when the message
names none, e.g. for OS-level errors). -/
inductive PyErr where
  | notADirectory (named : List FPath) : PyErr
  | fileNotFound : PyErr
  | fileExists : PyErr
  | isADirectory : PyErr
  | launchFailure : PyErr
  | valueError : PyErr
  | protocolNotRun : PyErr
deriving DecidableEq

/-- First value stored under key `p` in an association list keyed by paths. -/
def lookupVal {β : Type} : List (FPath × β) → FPath → Option β
  | [], _ => none
  | (q, v) :: rest, p => if q = p then some v else lookupVal rest p

/-- Replace the value of an entry when its key is `k`. -/
def replaceVal {β : Type} (k : FPath) (v : β) (it : FPath × β) : FPath × β :=
  if it.1 = k then (k, v) else it

/-- Dict-style store: overwrite an existing key in place (keeping list
order), append a fresh key at the end. -/
def setVal {β : Type} (m : List (FPath × β)) (p : FPath) (v : β) :
    List (FPath × β) :=
  if m.any (fun it => decide (it.1 = p)) then m.map (replaceVal p v)
  else m ++ [(p, v)]

/-- The keys of an association list, in order. -/
def keysOf {β : Type} (m : List (FPath × β)) : List FPath :=
  m.map (fun it => it.1)

/-- First entry stored at path `p`, by scanning the association list. -/
def lookupEntry (fs : FS) (p : FPath) : Option Entry := lookupVal fs p

/-- The entry at path `p`; the filesystem root `[]` always exists as a
directory (it is never stored explicitly). -/
def entryAt (fs : FS) (p : FPath) : Option Entry :=
  if p = [] then some Entry.dir else lookupEntry fs p

/-- `os.path` existence test. -/
def fsExists (fs : FS) (p : FPath) : Bool :=
  (entryAt fs p).isSome

/-- `pathlib.Path.is_dir`: true only for an existing directory
(false for missing paths and for files). -/
def fsIsDir (fs : FS) (p : FPath) : Bool :=
  match entryAt fs p with
  | some Entry.dir => true
  | _ => false

/-- Store entry `e` at path `p`: replace in place if the key is present
(keeping list order, like a dict update), otherwise append. -/
def setEntry (fs : FS) (p : FPath) (e : Entry) : FS := setVal fs p e

/-- The keys (paths) of a filesystem snapshot, in list order. -/
def fsKeys (fs : FS) : List FPath := keysOf fs

/-- Well-formedness check, scanning the snapshot left to right with the
already-seen entries accumulated: every path is nonempty and fresh, and its
parent is the root or an earlier directory entry.  This is exactly what a
recursive directory enumeration yields. -/
def wfAuxB : FS → FS → Bool
  | _, [] => true
  | seen, (p, e) :: rest =>
    decide (p ≠ []) &&
    seen.all (fun q => decide (q.1 ≠ p)) &&
    (decide (p.dropLast = []) || seen.any (fun q => decide (q = (p.dropLast, Entry.dir)))) &&
    wfAuxB (seen ++ [(p, e)]) rest

/-- A well-formed filesystem snapshot. -/
def wfB (fs : FS) : Bool := wfAuxB [] fs

/-- Render a path the way `str(pathlib.Path(...))` renders an absolute path:
a `/` before each component. -/
def pathChars (p : FPath) : List Char :=
  p.flatMap (fun n => '/' :: n)

/-- `should_ignore(path, ignore)`: true when the rendered path contains one
of the motifs as a literal substring. -/
def should_ignore (path : FPath) (ignore : List Motif) : Bool :=
  ignore.any (fun token => decide (token <:+: pathChars path))

/-- `pathlib.Path.mkdir()` (non-recursive): fails if the path exists, or if
the parent is missing or is a file. -/
def mkdirOne (fs : FS) (p : FPath) : Except PyErr FS :=
  if (entryAt fs p).isSome then Except.error PyErr.fileExists
  else
    match entryAt fs p.dropLast with
    | some Entry.dir => Except.ok (setEntry fs p Entry.dir)
    | some (Entry.file _) => Except.error (PyErr.notADirectory [])
    | none => Except.error PyErr.fileNotFound

/-- Helper for `mkdir(parents=True)`: walk the components left to right,
descending through existing directories and creating missing ones. -/
def ensureDirs (fs : FS) (pre : FPath) (todo : List Name) : Except PyErr FS :=
  match todo with
  | [] => Except.ok fs
  | n :: rest =>
    match entryAt fs (pre ++ [n]) with
    | some Entry.dir => ensureDirs fs (pre ++ [n]) rest
    | some (Entry.file _) => Except.error (PyErr.notADirectory [])
    | none => ensureDirs (setEntry fs (pre ++ [n]) Entry.dir) (pre ++ [n]) rest

/-- `pathlib.Path.mkdir(parents=True)`: fails with `FileExistsError` when the
full path already exists, creates all missing ancestors otherwise, and fails
when an ancestor exists as a file. -/
def mkdirParents (fs : FS) (p : FPath) : Except PyErr FS :=
  if (entryAt fs p).isSome then Except.error PyErr.fileExists
  else ensureDirs fs [] p

/-- `open(path, 'w')`: truncate an existing file or create a new one (the
parent must then exist and be a directory); opening a directory fails. -/
def openTrunc (fs : FS) (p : FPath) : Except PyErr FS :=
  match entryAt fs p with
  | some (Entry.file _) => Except.ok (setEntry fs p (Entry.file []))
  | some Entry.dir => Except.error PyErr.isADirectory
  | none =>
    match entryAt fs p.dropLast with
    | some Entry.dir => Except.ok (setEntry fs p (Entry.file []))
    | some (Entry.file _) => Except.error (PyErr.notADirectory [])
    | none => Except.error PyErr.fileNotFound

/-- `shutil.copy(src, dst)`: copy a file's content.  When `dst` is an
existing directory the copy lands inside it under the source's basename;
an existing file at the target is overwritten; copying a directory or a
missing source fails; a missing or non-directory parent of a fresh target
fails. -/
def shutilCopy (fs : FS) (src dst : FPath) : Except PyErr FS :=
  match entryAt fs src with
  | some (Entry.file c) =>
    match entryAt fs dst with
    | some Entry.dir =>
      let target := dst ++ [src.getLastD []]
      match entryAt fs target with
      | some Entry.dir => Except.error PyErr.isADirectory
      | _ => Except.ok (setEntry fs target (Entry.file c))
    | some (Entry.file _) => Except.ok (setEntry fs dst (Entry.file c))
    | none =>
      match entryAt fs dst.dropLast with
      | some Entry.dir => Except.ok (setEntry fs dst (Entry.file c))
      | some (Entry.file _) => Except.error (PyErr.notADirectory [])
      | none => Except.error PyErr.fileNotFound
  | some Entry.dir => Except.error PyErr.isADirectory
  | none => Except.error PyErr.fileNotFound

/-- One iteration of the copy loop of `overlay_directories`: materialize the
table entry `(dest_rel, origin)` under `destination` (directories are
created, files copied; the parent is created first when missing). -/
def copyOne (fs : FS) (destination : FPath) (item : FPath × FPath) : Except PyErr FS :=
  let full_dest := destination ++ item.1
  if fsIsDir fs item.2 then
    if fsExists fs full_dest then Except.ok fs
    else mkdirOne fs full_dest
  else
    let ensured :=
      if fsExists fs full_dest.dropLast then Except.ok fs
      else mkdirOne fs full_dest.dropLast
    match ensured with
    | Except.error e => Except.error e
    | Except.ok fs1 => shutilCopy fs1 item.2 full_dest

/-- The copy loop of `overlay_directories` over the final merge table. -/
def materialize (destination : FPath) (items : List (FPath × FPath)) (fs : FS) :
    Except PyErr FS :=
  match items with
  | [] => Except.ok fs
  | item :: rest =>
    match copyOne fs destination item with
    | Except.error e => Except.error e
    | Except.ok fs1 => materialize destination rest fs1

/-- `path.glob('**/*')`: every stored path strictly below `root`, in
snapshot (walk) order. -/
def fsGlob (fs : FS) (root : FPath) : List FPath :=
  (fsKeys fs).filter (fun p => decide (root <+: p) && decide (p ≠ root))

/-- The per-source contribution to the merge table: the comprehension
`[(p.relative_to(path), p) for p in path.glob('**/*') if not should_ignore(p, ignore)]`. -/
def srcEntries (fs : FS) (s : FPath) (ignore : List Motif) : List (FPath × FPath) :=
  ((fsGlob fs s).filter (fun p => !(should_ignore p ignore))).map
    (fun p => (p.drop s.length, p))

/-- `OrderedDict` insertion: overwrite an existing key in place, append a
fresh key at the end. -/
def odInsert (m : List (FPath × FPath)) (kv : FPath × FPath) :
    List (FPath × FPath) :=
  setVal m kv.1 kv.2

/-- `files.update(...)`: fold the new entries into the ordered mapping. -/
def odUpdate (m : List (FPath × FPath)) (entries : List (FPath × FPath)) :
    List (FPath × FPath) :=
  entries.foldl odInsert m

/-- The final merge table of `overlay_directories`: relative path to winning
origin, later sources overwriting earlier ones. -/
def buildTable (fs : FS) (sources : List FPath) (ignore : List Motif) :
    List (FPath × FPath) :=
  sources.foldl (fun acc s => odUpdate acc (srcEntries fs s ignore)) []

/-- Lookup of a relative path in the merge table (first match, which is the
unique match for tables with distinct keys). -/
def tableLookup (items : List (FPath × FPath)) (q : FPath) : Option FPath :=
  lookupVal items q

/-- `overlay_directories(sources, destination, ignore)`: check the sources
and the destination, build the merge table (last source wins), create the
destination if needed, then materialize the table. -/
def overlay_directories (fs : FS) (sources : List FPath) (destination : FPath)
    (ignore : List Motif) : Except PyErr FS :=
  let non_dir := sources.filter (fun p => !(fsIsDir fs p))
  if non_dir ≠ [] then Except.error (PyErr.notADirectory non_dir)
  else if fsExists fs destination && !(fsIsDir fs destination) then
    Except.error (PyErr.notADirectory [])
  else
    let files := buildTable fs sources ignore
    match (if fsExists fs destination then Except.ok fs else mkdirParents fs destination) with
    | Except.error e => Except.error e
    | Except.ok fs0 => materialize destination files fs0

/-- Name of the captured standard output log. -/
def stdoutLogName : Name := "stdout.log".toList

/-- Name of the captured standard error log. -/
def stderrLogName : Name := "stderr.log".toList

/-- Name of the persisted exit-code record. -/
def exitCodeName : Name := "EXIT_CODE".toList

/-- Name of the script-produced success-code record. -/
def successCodeName : Name := "SUCCESS_CODE".toList

/-- Decimal digits of a natural number, most significant first. -/
def renderNat (n : Nat) : List Char :=
  ((Nat.digits 10 n).map (fun d => Char.ofNat (48 + d))).reverse

/-- `str(i)` for an integer, as written by `print(exit_code, file=outfile)`. -/
def renderInt (i : Int) : List Char :=
  if i < 0 then '-' :: renderNat i.natAbs
  else if i = 0 then ['0'] else renderNat i.toNat

/-- Value of a decimal digit character. -/
def digitVal (c : Char) : Option Nat :=
  if c.isDigit then some (c.toNat - 48) else none

/-- Parse an all-digit, nonempty character list as a natural number. -/
def parseNatChars (l : List Char) : Option Nat :=
  if l = [] then none
  else l.foldl (fun acc c => acc.bind (fun n => (digitVal c).map (fun d => 10 * n + d)))
    (some 0)

/-- Python `int(s)`: strip surrounding whitespace, then an optional sign and
decimal digits; anything else raises `ValueError` (modelled as `none`). -/
def parseIntChars (l : List Char) : Option Int :=
  let t := ((l.dropWhile Char.isWhitespace).reverse.dropWhile Char.isWhitespace).reverse
  match t with
  | '-' :: rest => (parseNatChars rest).map (fun n => -(n : Int))
  | '+' :: rest => (parseNatChars rest).map (fun n => (n : Int))
  | _ => (parseNatChars t).map (fun n => (n : Int))

/-- Split file content into lines the way iterating a Python text file does:
each line keeps its trailing newline; a final unterminated chunk is a line. -/
def splitLinesAux : List Char → List Char → List (List Char)
  | [], acc => if acc = [] then [] else [acc.reverse]
  | c :: rest, acc =>
    if c = '\n' then (acc.reverse ++ ['\n']) :: splitLinesAux rest []
    else splitLinesAux rest (c :: acc)

/-- The lines of a captured log file. -/
def splitLines (l : List Char) : List (List Char) :=
  splitLinesAux l []

/-- What happens when `subprocess.Popen` is asked to launch the protocol
script: either the process cannot be started (the launch raises), or the
script runs to completion with an exit code and the bytes it wrote to the
two redirected streams.  Other filesystem side effects of the child are
outside the claims and are not modelled. -/
inductive LaunchOutcome where
  | failure : LaunchOutcome
  | success (exitCode : Int) (stdoutContent stderrContent : List Char) : LaunchOutcome

/-- `run_protocol(root, script, log_directory)`: ensure the log directory,
truncate-open the two log files, launch the script, then persist the exit
code.  Returns the mutated filesystem together with the exit code or the
raised exception (filesystem effects survive a raised exception). -/
def run_protocol (root : FPath) (script : Name) (log_directory : Option FPath)
    (launch : LaunchOutcome) (fs : FS) : FS × Except PyErr Int :=
  let log_directory := match log_directory with
    | none => root ++ ["LOGS".toList]
    | some d => d
  match (if !(fsExists fs log_directory) then mkdirParents fs log_directory
         else if !(fsIsDir fs log_directory) then
           Except.error (PyErr.notADirectory [log_directory])
         else Except.ok fs) with
  | Except.error e => (fs, Except.error e)
  | Except.ok fs1 =>
    let out_path := log_directory ++ [stdoutLogName]
    let err_path := log_directory ++ [stderrLogName]
    match openTrunc fs1 out_path with
    | Except.error e => (fs1, Except.error e)
    | Except.ok fs2 =>
      match openTrunc fs2 err_path with
      | Except.error e => (fs2, Except.error e)
      | Except.ok fs3 =>
        match launch with
        | LaunchOutcome.failure => (fs3, Except.error PyErr.launchFailure)
        | LaunchOutcome.success code outc errc =>
          let fs4 := setEntry (setEntry fs3 out_path (Entry.file outc)) err_path
            (Entry.file errc)
          let exit_code_file := log_directory ++ [exitCodeName]
          match openTrunc fs4 exit_code_file with
          | Except.error e => (fs4, Except.error e)
          | Except.ok fs5 =>
            (setEntry fs5 exit_code_file (Entry.file (renderInt code ++ ['\n'])),
             Except.ok code)

/-- The metadata of a protocol, as resolved by `_parse_meta`.  The merge of
`meta_default.ini` with the per-protocol `meta.ini` (override wins per key)
is abstracted to its result, since the claims do not test the INI reading
mechanics and `meta_default.ini` is not part of the source. -/
structure Meta where
  script : Name
  log_dir : FPath
  nameOverride : Option Name
deriving DecidableEq

/-- A `Protocol` instance: the root directory, the eagerly parsed metadata,
and the in-memory exit-code cache `self._exit_code` (set to `None` at
construction). -/
structure Protocol where
  root : FPath
  meta : Meta
  exitCodeCache : Option Int
deriving DecidableEq

/-- Construct a protocol from a root and its resolved metadata; the cache
starts empty, as in `Protocol.__init__`. -/
def Protocol.make (root : FPath) (meta : Meta) : Protocol :=
  { root := root, meta := meta, exitCodeCache := none }

/-- `Protocol.name`: the metadata name, else the root path rendered. -/
def Protocol.name (p : Protocol) : Name :=
  match p.meta.nameOverride with
  | some n => n
  | none => pathChars p.root

/-- `Protocol.script`. -/
def Protocol.script (p : Protocol) : Name := p.meta.script

/-- `Protocol.log_directory`: `root / log_dir`. -/
def Protocol.log_directory (p : Protocol) : FPath := p.root ++ p.meta.log_dir

/-- `Protocol.stdout_path`. -/
def Protocol.stdout_path (p : Protocol) : FPath :=
  p.log_directory ++ [stdoutLogName]

/-- `Protocol.stderr_path`. -/
def Protocol.stderr_path (p : Protocol) : FPath :=
  p.log_directory ++ [stderrLogName]

/-- `Protocol.exit_code_path`. -/
def Protocol.exit_code_path (p : Protocol) : FPath :=
  p.log_directory ++ [exitCodeName]

/-- `Protocol.success_code_path`. -/
def Protocol.success_code_path (p : Protocol) : FPath :=
  p.log_directory ++ [successCodeName]

/-- The `Protocol.exit_code` property: return the cached code if set, else
read and cache the `EXIT_CODE` record, returning `None` when the record
does not exist.  Reading a directory or unparsable content raises (those
exceptions are not caught by the property). -/
def Protocol.exit_code (p : Protocol) (fs : FS) :
    Except PyErr (Option Int × Protocol) :=
  match p.exitCodeCache with
  | some c => Except.ok (some c, p)
  | none =>
    match entryAt fs p.exit_code_path with
    | none => Except.ok (none, p)
    | some Entry.dir => Except.error PyErr.isADirectory
    | some (Entry.file content) =>
      match parseIntChars content with
      | some c => Except.ok (some c, { p with exitCodeCache := some c })
      | none => Except.error PyErr.valueError

/-- The `Protocol.success_code` property: read the script-produced record,
`None` when it does not exist. -/
def Protocol.success_code (p : Protocol) (fs : FS) : Except PyErr (Option Int) :=
  match entryAt fs p.success_code_path with
  | none => Except.ok none
  | some Entry.dir => Except.error PyErr.isADirectory
  | some (Entry.file content) =>
    match parseIntChars content with
    | some c => Except.ok (some c)
    | none => Except.error PyErr.valueError

/-- The `Protocol.stdout` property: the lines of the captured standard
output, raising `ProtocolNotRunError` when the log file does not exist. -/
def Protocol.stdout (p : Protocol) (fs : FS) : Except PyErr (List (List Char)) :=
  match entryAt fs p.stdout_path with
  | some (Entry.file c) => Except.ok (splitLines c)
  | some Entry.dir => Except.error PyErr.isADirectory
  | none => Except.error PyErr.protocolNotRun

/-- The `Protocol.stderr` property, symmetric to `Protocol.stdout`. -/
def Protocol.stderr (p : Protocol) (fs : FS) : Except PyErr (List (List Char)) :=
  match entryAt fs p.stderr_path with
  | some (Entry.file c) => Except.ok (splitLines c)
  | some Entry.dir => Except.error PyErr.isADirectory
  | none => Except.error PyErr.protocolNotRun

/-- The part of `Protocol.run` that actually invokes `run_protocol` and, on
normal completion, stores the exit code in `self._exit_code`.  On a raised
exception the object is unchanged (the assignment never happens). -/
def runBranch (p : Protocol) (launch : LaunchOutcome) (fs : FS) :
    FS × Protocol × Except PyErr Unit :=
  match run_protocol p.root p.script (some p.log_directory) launch fs with
  | (fs1, Except.ok code) => (fs1, { p with exitCodeCache := some code }, Except.ok ())
  | (fs1, Except.error e) => (fs1, p, Except.error e)

/-- `Protocol.run(force)`: when `force` is true the script is executed
without consulting the property (Python's `or` short-circuits); otherwise
the `exit_code` property is evaluated first and the script is executed only
when it yields `None`. -/
def Protocol.run (p : Protocol) (force : Bool) (launch : LaunchOutcome)
    (fs : FS) : FS × Protocol × Except PyErr Unit :=
  if force then runBranch p launch fs
  else
    match p.exit_code fs with
    | Except.error e => (fs, p, Except.error e)
    | Except.ok (some _, p1) => (fs, p1, Except.ok ())
    | Except.ok (none, p1) => runBranch p1 launch fs

deriving instance DecidableEq for Except

instance : Inhabited Entry := ⟨Entry.dir⟩

/-- Keys are pairwise distinct (true of any real filesystem snapshot). -/
def keysNodup (fs : FS) : Prop := (fsKeys fs).Nodup

/-- The destination subtree is initially empty: no entry strictly below
`destination` exists yet. -/
def cleanDest (fs : FS) (destination : FPath) : Prop :=
  ∀ q : FPath, q ≠ [] → entryAt fs (destination ++ q) = none

/-- The destination is prefix-incomparable with every source: merging never
writes into a source tree and never reads from the destination tree. -/
def disjointFrom (destination : FPath) (sources : List FPath) : Prop :=
  ∀ s ∈ sources, ¬ destination <+: s ∧ ¬ s <+: destination

/-- Structural invariant of a merge table suffix, with the keys already
listed accumulated in `seen`: keys are nonempty, fresh, listed after their
parent key, and origins exist and lie outside the destination subtree. -/
def TableGood (fs0 : FS) (destination : FPath) :
    List FPath → List (FPath × FPath) → Prop
  | _, [] => True
  | seen, (r, o) :: rest =>
    r ≠ [] ∧ r ∉ seen ∧ (r.dropLast = [] ∨ r.dropLast ∈ seen) ∧
    (entryAt fs0 o).isSome = true ∧ ¬ destination <+: o ∧
    TableGood fs0 destination (seen ++ [r]) rest

/-- Invariant of the copy loop started on a clean destination: outside the
destination subtree nothing has changed, the destination root is a
directory, and below it exactly the processed table entries exist, each
carrying its origin's entry. -/
def MatInv (fs0 : FS) (destination : FPath) (done : List (FPath × FPath))
    (g : FS) : Prop :=
  keysNodup g ∧
  (∀ w : FPath, ¬ destination <+: w → entryAt g w = entryAt fs0 w) ∧
  entryAt g destination = some Entry.dir ∧
  (∀ q : FPath, q ≠ [] →
    entryAt g (destination ++ q) = (tableLookup done q).bind (entryAt fs0))

/-- Sample protocol root used by concrete witnesses. -/
def sampleRoot : FPath := ["proto".toList]

/-- Sample resolved metadata used by concrete witnesses. -/
def sampleMeta : Meta :=
  { script := "run.sh".toList, log_dir := ["LOGS".toList], nameOverride := none }

/-- A freshly constructed sample protocol. -/
def sampleProt : Protocol := Protocol.make sampleRoot sampleMeta

/-- A sample protocol whose exit code is already cached in memory. -/
def sampleProtKnown : Protocol := { sampleProt with exitCodeCache := some 7 }

/-- A snapshot holding only the protocol root (no log directory yet). -/
def sampleFS0 : FS := [(sampleRoot, Entry.dir)]

/-- A snapshot holding the protocol root and an empty log directory. -/
def sampleFSL : FS :=
  [(sampleRoot, Entry.dir), (sampleRoot ++ ["LOGS".toList], Entry.dir)]

/-- Result of forcing a sample run whose script exits 0. -/
def sampleRunResult : FS × Protocol × Except PyErr Unit :=
  Protocol.run sampleProt true (LaunchOutcome.success 0 "ok".toList []) sampleFSL

/-- Result of forcing a sample run whose launch fails. -/
def failRunResult : FS × Protocol × Except PyErr Unit :=
  Protocol.run sampleProt true LaunchOutcome.failure sampleFSL

/-- Extract the resulting snapshot of a successful merge (empty on error);
used to name concrete merge results in witnesses. -/
def okOr (r : Except PyErr FS) : FS :=
  match r with
  | Except.ok g => g
  | Except.error _ => []

/-- Source root of the copy-into-directory scenario. -/
def c9A : FPath := ["srca".toList]

/-- Destination root of the copy-into-directory scenario. -/
def c9D : FPath := ["d".toList]

/-- The component name used twice in the copy-into-directory scenario. -/
def c9aName : Name := "a".toList

/-- A snapshot where the destination already holds a directory `d/a` with a
file `d/a/a`, while the source holds a file `a`. -/
def c9fs : FS :=
  [(c9A, Entry.dir), (c9A ++ [c9aName], Entry.file "x".toList),
   (c9D, Entry.dir), (c9D ++ [c9aName], Entry.dir),
   (c9D ++ [c9aName, c9aName], Entry.file "old".toList)]

/-- The merged result of the copy-into-directory scenario. -/
def c9Result : FS := okOr (overlay_directories c9fs [c9A] c9D [])

/-- The selection test applied to each globbed path when building a
source's merge-table contribution: strictly below the source root and not
excluded. -/
def selFn (s : FPath) (ignore : List Motif) (p : FPath) : Bool :=
  !(should_ignore p ignore) && (decide (s <+: p) && !(decide (p = s)))

/-- `srcEntries` recast as one pass over an arbitrary snapshot fragment;
used to reason by induction along the enumeration order. -/
def selPairs (s : FPath) (ignore : List Motif) (l : FS) :
    List (FPath × FPath) :=
  ((l.map (fun q => q.1)).filter (fun p => selFn s ignore p)).map
    (fun p => (p.drop s.length, p))

/-- First source of the last-source-wins witness (the spec's `base`). -/
def c1A : FPath := ["base".toList]

/-- Second source of the last-source-wins witness (the spec's `overlay`). -/
def c1B : FPath := ["overlay".toList]

/-- Destination of the last-source-wins witness. -/
def c1D : FPath := ["dst".toList]

/-- The shared relative path of the last-source-wins witness. -/
def c1P : FPath := ["a.txt".toList]

/-- Snapshot where both sources define `a.txt` with different content. -/
def c1fs : FS :=
  [(c1A, Entry.dir), (c1A ++ c1P, Entry.file "1".toList),
   (c1B, Entry.dir), (c1B ++ c1P, Entry.file "2".toList)]

/-- The merged result of the last-source-wins witness. -/
def c1Result : FS := okOr (overlay_directories c1fs [c1A, c1B] c1D [])

/-- Source root whose rendered path contains the exclusion motif. -/
def c2A : FPath := ["foosrc".toList]

/-- Second source of the exclusion scenario (not matching the motif). -/
def c2B : FPath := ["b".toList]

/-- Destination of the exclusion scenario. -/
def c2D : FPath := ["d2".toList]

/-- Shared component name of the exclusion scenario. -/
def c2X : Name := "x".toList

/-- The exclusion motif, matching only the first source's root. -/
def c2Motif : Motif := "foo".toList

/-- Snapshot where both sources define `x`, the first one excluded. -/
def c2fs : FS :=
  [(c2A, Entry.dir), (c2A ++ [c2X], Entry.file "ax".toList),
   (c2B, Entry.dir), (c2B ++ [c2X], Entry.file "bx".toList)]

/-- The merged result of the exclusion scenario. -/
def c2Result : FS := okOr (overlay_directories c2fs [c2A, c2B] c2D [c2Motif])

-- ### Theorems


theorem keysOf_nil {β : Type} : keysOf ([] : List (FPath × β)) = [] := rfl

theorem keysOf_cons {β : Type} (hd : FPath × β) (tl : List (FPath × β)) :
    keysOf (hd :: tl) = hd.1 :: keysOf tl := rfl

theorem keysOf_append {β : Type} (l1 l2 : List (FPath × β)) :
    keysOf (l1 ++ l2) = keysOf l1 ++ keysOf l2 := by
  simp [keysOf]

theorem mem_keysOf_of_mem {β : Type} {m : List (FPath × β)} {it : FPath × β}
    (h : it ∈ m) : it.1 ∈ keysOf m := by
  unfold keysOf
  exact List.mem_map.mpr ⟨it, h, rfl⟩

theorem replaceVal_pair_self {β : Type} (p : FPath) (v v0 : β) :
    replaceVal p v (p, v0) = (p, v) := by
  simp [replaceVal]

theorem replaceVal_pair_other {β : Type} {p q : FPath} (v : β) (v0 : β)
    (h : q ≠ p) : replaceVal p v (q, v0) = (q, v0) := by
  simp [replaceVal, h]

theorem replaceVal_key {β : Type} (k : FPath) (v : β) (it : FPath × β) :
    (replaceVal k v it).1 = it.1 := by
  unfold replaceVal
  by_cases h : it.1 = k <;> simp [h]

theorem lookupVal_append {β : Type} (l1 l2 : List (FPath × β)) (p : FPath) :
    lookupVal (l1 ++ l2) p =
      match lookupVal l1 p with
      | some v => some v
      | none => lookupVal l2 p := by
  induction l1 with
  | nil => simp [lookupVal]
  | cons hd tl ih =>
    obtain ⟨q, v⟩ := hd
    by_cases h : q = p <;> simp [lookupVal, h, ih]

theorem lookupVal_of_not_mem {β : Type} {m : List (FPath × β)} {p : FPath}
    (h : p ∉ keysOf m) : lookupVal m p = none := by
  induction m with
  | nil => rfl
  | cons hd tl ih =>
    obtain ⟨q, v⟩ := hd
    rw [keysOf_cons] at h
    simp only [List.mem_cons, not_or] at h
    have hq : q ≠ p := fun hc => h.1 hc.symm
    simp [lookupVal, hq, ih h.2]

theorem lookupVal_isSome_of_mem {β : Type} {m : List (FPath × β)} {p : FPath}
    (h : p ∈ keysOf m) : (lookupVal m p).isSome = true := by
  induction m with
  | nil => rw [keysOf_nil] at h; simp at h
  | cons hd tl ih =>
    obtain ⟨q, v⟩ := hd
    rw [keysOf_cons] at h
    by_cases hq : q = p
    · simp [lookupVal, hq]
    · rcases List.mem_cons.mp h with h1 | h1
      · exact absurd h1.symm hq
      · simp [lookupVal, hq, ih h1]

theorem lookupVal_mem {β : Type} {m : List (FPath × β)} {p : FPath} {v : β}
    (h : lookupVal m p = some v) : (p, v) ∈ m := by
  induction m with
  | nil => simp [lookupVal] at h
  | cons hd tl ih =>
    obtain ⟨q, v0⟩ := hd
    by_cases hq : q = p
    · subst hq
      simp [lookupVal] at h
      simp [h]
    · simp [lookupVal, hq] at h
      simp [ih h]

theorem lookupVal_mem_keys {β : Type} {m : List (FPath × β)} {p : FPath} {v : β}
    (h : lookupVal m p = some v) : p ∈ keysOf m :=
  mem_keysOf_of_mem (lookupVal_mem h)

theorem mem_lookupVal {β : Type} {m : List (FPath × β)} {p : FPath} {v : β}
    (hnd : (keysOf m).Nodup) (h : (p, v) ∈ m) : lookupVal m p = some v := by
  induction m with
  | nil => simp at h
  | cons hd tl ih =>
    obtain ⟨q, v0⟩ := hd
    rw [keysOf_cons] at hnd
    have hq_not : q ∉ keysOf tl := (List.nodup_cons.mp hnd).1
    have hnd' : (keysOf tl).Nodup := (List.nodup_cons.mp hnd).2
    rcases List.mem_cons.mp h with h1 | h1
    · injection h1 with hp hv
      subst hp
      simp [lookupVal, hv]
    · have hq : q ≠ p := by
        intro hc
        exact hq_not (hc ▸ mem_keysOf_of_mem h1)
      simp [lookupVal, hq, ih hnd' h1]

theorem any_key_iff {β : Type} {m : List (FPath × β)} {p : FPath} :
    (m.any (fun it => decide (it.1 = p)) = true) ↔ p ∈ keysOf m := by
  rw [List.any_eq_true]
  unfold keysOf
  rw [List.mem_map]
  constructor
  · rintro ⟨it, hmem, hdec⟩
    exact ⟨it, hmem, of_decide_eq_true hdec⟩
  · rintro ⟨it, hmem, heq⟩
    exact ⟨it, hmem, decide_eq_true heq⟩

theorem lookupVal_map_replace_self {β : Type} {m : List (FPath × β)}
    {p : FPath} {v : β} (h : p ∈ keysOf m) :
    lookupVal (m.map (replaceVal p v)) p = some v := by
  induction m with
  | nil => rw [keysOf_nil] at h; simp at h
  | cons hd tl ih =>
    obtain ⟨q, v0⟩ := hd
    by_cases hq : q = p
    · subst hq
      rw [List.map_cons, replaceVal_pair_self]
      simp [lookupVal]
    · rw [keysOf_cons] at h
      rcases List.mem_cons.mp h with h1 | h1
      · exact absurd h1.symm hq
      · rw [List.map_cons, replaceVal_pair_other v v0 hq]
        simp [lookupVal, hq, ih h1]

theorem lookupVal_map_replace_other {β : Type} {m : List (FPath × β)}
    {p q : FPath} {v : β} (hq : q ≠ p) :
    lookupVal (m.map (replaceVal p v)) q = lookupVal m q := by
  induction m with
  | nil => rfl
  | cons hd tl ih =>
    obtain ⟨k, v0⟩ := hd
    by_cases hk : k = p
    · subst hk
      rw [List.map_cons, replaceVal_pair_self]
      have hkq : k ≠ q := fun hc => hq hc.symm
      simp [lookupVal, hkq, ih]
    · rw [List.map_cons, replaceVal_pair_other v v0 hk]
      by_cases hkq : k = q <;> simp [lookupVal, hkq, ih]

theorem map_replaceVal_of_not_mem {β : Type} {m : List (FPath × β)}
    {p : FPath} {v : β} (h : p ∉ keysOf m) :
    m.map (replaceVal p v) = m := by
  induction m with
  | nil => rfl
  | cons hd tl ih =>
    obtain ⟨k, v0⟩ := hd
    rw [keysOf_cons] at h
    simp only [List.mem_cons, not_or] at h
    have hk : k ≠ p := fun hc => h.1 hc.symm
    rw [List.map_cons, replaceVal_pair_other v v0 hk, ih h.2]

theorem lookupVal_set_self {β : Type} (m : List (FPath × β)) (p : FPath)
    (v : β) : lookupVal (setVal m p v) p = some v := by
  unfold setVal
  by_cases hmem : m.any (fun it => decide (it.1 = p)) = true
  · rw [if_pos hmem]
    exact lookupVal_map_replace_self (any_key_iff.mp hmem)
  · rw [if_neg hmem, lookupVal_append,
      lookupVal_of_not_mem (fun hc => hmem (any_key_iff.mpr hc))]
    simp [lookupVal]

theorem lookupVal_set_other {β : Type} {m : List (FPath × β)} {p q : FPath}
    {v : β} (hq : q ≠ p) : lookupVal (setVal m p v) q = lookupVal m q := by
  unfold setVal
  by_cases hmem : m.any (fun it => decide (it.1 = p)) = true
  · rw [if_pos hmem]
    exact lookupVal_map_replace_other hq
  · rw [if_neg hmem, lookupVal_append]
    cases hlk : lookupVal m q with
    | some v0 => simp
    | none =>
      have hpq : p ≠ q := fun hc => hq hc.symm
      simp [lookupVal, hpq]

theorem setVal_eq_of_lookup {β : Type} {m : List (FPath × β)} {p : FPath}
    {v : β} (hnd : (keysOf m).Nodup) (h : lookupVal m p = some v) :
    setVal m p v = m := by
  unfold setVal
  rw [if_pos (any_key_iff.mpr (lookupVal_mem_keys h))]
  induction m with
  | nil => rfl
  | cons hd tl ih =>
    obtain ⟨k, v0⟩ := hd
    rw [keysOf_cons] at hnd
    have hnd' : (keysOf tl).Nodup := (List.nodup_cons.mp hnd).2
    by_cases hk : k = p
    · subst hk
      have heq : lookupVal ((k, v0) :: tl) k = some v0 := by simp [lookupVal]
      have hv : v0 = v := by
        have h2 := heq.symm.trans h
        injection h2
      subst hv
      rw [List.map_cons, replaceVal_pair_self]
      rw [map_replaceVal_of_not_mem (List.nodup_cons.mp hnd).1]
    · simp only [lookupVal, if_neg hk] at h
      rw [List.map_cons, replaceVal_pair_other v v0 hk, ih hnd' h]

theorem keysOf_set_of_mem {β : Type} {m : List (FPath × β)} {p : FPath}
    {v : β} (h : p ∈ keysOf m) : keysOf (setVal m p v) = keysOf m := by
  unfold setVal
  rw [if_pos (any_key_iff.mpr h)]
  simp only [keysOf, List.map_map]
  apply List.map_congr_left
  intro it _
  exact replaceVal_key p v it

theorem keysOf_set_of_not_mem {β : Type} {m : List (FPath × β)} {p : FPath}
    {v : β} (h : p ∉ keysOf m) : keysOf (setVal m p v) = keysOf m ++ [p] := by
  unfold setVal
  rw [if_neg (fun hc => h (any_key_iff.mp hc))]
  rw [keysOf_append]
  rfl

theorem nodup_keys_setVal {β : Type} {m : List (FPath × β)} (p : FPath)
    (v : β) (hnd : (keysOf m).Nodup) : (keysOf (setVal m p v)).Nodup := by
  by_cases h : p ∈ keysOf m
  · rw [keysOf_set_of_mem h]
    exact hnd
  · rw [keysOf_set_of_not_mem h]
    simp [List.nodup_append, hnd, h]

theorem entryAt_nil_path (fs : FS) : entryAt fs [] = some Entry.dir := by
  simp [entryAt]

theorem entryAt_of_ne_nil {fs : FS} {p : FPath} (hp : p ≠ []) :
    entryAt fs p = lookupVal fs p := by
  simp [entryAt, lookupEntry, hp]

theorem entryAt_set_self {fs : FS} {p : FPath} (e : Entry) (hp : p ≠ []) :
    entryAt (setEntry fs p e) p = some e := by
  rw [entryAt_of_ne_nil hp]
  exact lookupVal_set_self fs p e

theorem entryAt_set_other {fs : FS} {p q : FPath} {e : Entry} (hq : q ≠ p) :
    entryAt (setEntry fs p e) q = entryAt fs q := by
  by_cases hq0 : q = []
  · subst hq0
    simp [entryAt]
  · rw [entryAt_of_ne_nil hq0, entryAt_of_ne_nil hq0]
    exact lookupVal_set_other hq

theorem entryAt_set_isSome {fs : FS} {p q : FPath} {e : Entry}
    (h : (entryAt fs q).isSome = true) :
    (entryAt (setEntry fs p e) q).isSome = true := by
  by_cases hqp : q = p
  · subst hqp
    by_cases hq0 : q = []
    · subst hq0
      simp [entryAt]
    · simp [entryAt_set_self e hq0]
  · rw [entryAt_set_other hqp]
    exact h

theorem setEntry_eq_self {fs : FS} {p : FPath} {e : Entry}
    (hnd : keysNodup fs) (hp : p ≠ []) (h : entryAt fs p = some e) :
    setEntry fs p e = fs := by
  rw [entryAt_of_ne_nil hp] at h
  exact setVal_eq_of_lookup hnd h

theorem entryAt_mem {fs : FS} {p : FPath} {e : Entry} (hp : p ≠ [])
    (h : entryAt fs p = some e) : (p, e) ∈ fs := by
  rw [entryAt_of_ne_nil hp] at h
  exact lookupVal_mem h

theorem mem_entryAt {fs : FS} {p : FPath} {e : Entry} (hnd : keysNodup fs)
    (hp : p ≠ []) (h : (p, e) ∈ fs) : entryAt fs p = some e := by
  rw [entryAt_of_ne_nil hp]
  exact mem_lookupVal hnd h

theorem entryAt_isSome_of_mem_keys {fs : FS} {p : FPath}
    (h : p ∈ fsKeys fs) : (entryAt fs p).isSome = true := by
  by_cases hp : p = []
  · subst hp
    simp [entryAt]
  · rw [entryAt_of_ne_nil hp]
    exact lookupVal_isSome_of_mem h

theorem keysNodup_setEntry {fs : FS} (p : FPath) (e : Entry)
    (hnd : keysNodup fs) : keysNodup (setEntry fs p e) :=
  nodup_keys_setVal p e hnd

theorem pathChars_append (p q : FPath) :
    pathChars (p ++ q) = pathChars p ++ pathChars q := by
  simp [pathChars]

theorem should_ignore_mono {p q : FPath} {ignore : List Motif}
    (h : should_ignore p ignore = true) :
    should_ignore (p ++ q) ignore = true := by
  simp only [should_ignore, List.any_eq_true] at h ⊢
  obtain ⟨token, htok, hinf⟩ := h
  refine ⟨token, htok, ?_⟩
  rw [decide_eq_true_iff] at hinf ⊢
  rw [pathChars_append]
  exact hinf.trans (List.prefix_append _ _).isInfix

theorem should_ignore_false_parent {p q : FPath} {ignore : List Motif}
    (h : should_ignore (p ++ q) ignore = false) :
    should_ignore p ignore = false := by
  by_contra hc
  rw [Bool.not_eq_false] at hc
  rw [should_ignore_mono hc] at h
  simp at h

theorem append_ne_nil_right (s r : FPath) (hr : r ≠ []) : s ++ r ≠ [] := by
  simp [hr]

theorem append_eq_self_iff {s r : FPath} : s ++ r = s ↔ r = [] := by
  constructor
  · intro h
    have := congrArg List.length h
    simp at this
    exact this
  · intro h
    simp [h]

theorem append_cancel_left_eq {d a b : FPath} (h : d ++ a = d ++ b) : a = b :=
  List.append_cancel_left h

theorem append_drop_of_pfx {s p : FPath} (h : s <+: p) :
    s ++ p.drop s.length = p := by
  obtain ⟨t, rfl⟩ := h
  rw [List.drop_left]

theorem pfx_comparable {a b c : FPath} (h1 : a <+: c) (h2 : b <+: c) :
    a <+: b ∨ b <+: a :=
  List.prefix_or_prefix_of_prefix h1 h2

theorem wfAuxB_cons {seen : FS} {p : FPath} {e : Entry} {rest : FS}
    (h : wfAuxB seen ((p, e) :: rest) = true) :
    p ≠ [] ∧ (∀ q ∈ seen, q.1 ≠ p) ∧
    (p.dropLast = [] ∨ (p.dropLast, Entry.dir) ∈ seen) ∧
    wfAuxB (seen ++ [(p, e)]) rest = true := by
  simp only [wfAuxB, Bool.and_eq_true, Bool.or_eq_true, decide_eq_true_iff,
    List.all_eq_true, List.any_eq_true] at h
  refine ⟨h.1.1.1, fun q hq => h.1.1.2 q hq, ?_, h.2⟩
  rcases h.1.2 with h1 | ⟨q, hq, hdec⟩
  · exact Or.inl h1
  · exact Or.inr (hdec ▸ hq)

theorem wfAuxB_nodup : ∀ {rest seen : FS}, wfAuxB seen rest = true →
    (fsKeys rest).Nodup ∧ ∀ k ∈ fsKeys rest, k ∉ fsKeys seen := by
  intro rest
  induction rest with
  | nil =>
    intro seen _
    exact ⟨List.nodup_nil, by simp [fsKeys, keysOf]⟩
  | cons hd tl ih =>
    intro seen h
    obtain ⟨p, e⟩ := hd
    obtain ⟨hp, hfresh, hpar, hrest⟩ := wfAuxB_cons h
    obtain ⟨hnd, hnot⟩ := ih hrest
    have hkeys : fsKeys (seen ++ [(p, e)]) = fsKeys seen ++ [p] := by
      simp [fsKeys, keysOf]
    have hp_not_tl : p ∉ fsKeys tl := by
      intro hc
      have := hnot p hc
      rw [hkeys] at this
      simp at this
    have hp_not_seen : p ∉ fsKeys seen := by
      intro hc
      obtain ⟨q, hq, hq1⟩ := List.mem_map.mp hc
      exact hfresh q hq hq1
    constructor
    · rw [show fsKeys ((p, e) :: tl) = p :: fsKeys tl from rfl]
      exact List.nodup_cons.mpr ⟨hp_not_tl, hnd⟩
    · intro k hk
      rcases List.mem_cons.mp hk with h1 | h1
      · exact h1 ▸ hp_not_seen
      · intro hc
        have := hnot k h1
        rw [hkeys] at this
        simp [hc] at this

theorem wf_nodup {fs : FS} (h : wfB fs = true) : keysNodup fs :=
  (wfAuxB_nodup h).1

theorem wfAuxB_mem_parent : ∀ {rest seen : FS}, wfAuxB seen rest = true →
    ∀ p e, (p, e) ∈ rest →
      p ≠ [] ∧ (p.dropLast = [] ∨ (p.dropLast, Entry.dir) ∈ seen ++ rest) := by
  intro rest
  induction rest with
  | nil =>
    intro seen _ p e hmem
    simp at hmem
  | cons hd tl ih =>
    intro seen h p e hmem
    obtain ⟨q, e0⟩ := hd
    obtain ⟨hq, hfresh, hpar, hrest⟩ := wfAuxB_cons h
    rcases List.mem_cons.mp hmem with h1 | h1
    · injection h1 with h1a h1b
      subst h1a
      refine ⟨hq, ?_⟩
      rcases hpar with h2 | h2
      · exact Or.inl h2
      · exact Or.inr (List.mem_append.mpr (Or.inl h2))
    · have := ih hrest p e h1
      refine ⟨this.1, ?_⟩
      rcases this.2 with h2 | h2
      · exact Or.inl h2
      · right
        have : (p.dropLast, Entry.dir) ∈ seen ++ ((q, e0) :: tl) := by
          have heq : seen ++ [(q, e0)] ++ tl = seen ++ ((q, e0) :: tl) := by
            simp
          exact heq ▸ h2
        exact this

theorem wf_mem_parent {fs : FS} (h : wfB fs = true) {p : FPath} {e : Entry}
    (hmem : (p, e) ∈ fs) :
    p ≠ [] ∧ (p.dropLast = [] ∨ (p.dropLast, Entry.dir) ∈ fs) := by
  have := wfAuxB_mem_parent h p e hmem
  simpa using this

theorem wf_entry_parent_dir {fs : FS} {p : FPath} {e : Entry}
    (hwf : wfB fs = true) (hpne : p ≠ []) (hp : entryAt fs p = some e) :
    p.dropLast = [] ∨ entryAt fs p.dropLast = some Entry.dir := by
  have hmem := entryAt_mem hpne hp
  rcases (wf_mem_parent hwf hmem).2 with h1 | h1
  · exact Or.inl h1
  · right
    have hne : p.dropLast ≠ [] := (wf_mem_parent hwf h1).1
    exact mem_entryAt (wf_nodup hwf) hne h1

theorem entryAt_none_child {fs : FS} {d : FPath} (hwf : wfB fs = true)
    (hd : d ≠ []) (h : entryAt fs d = none) (n : Name) :
    entryAt fs (d ++ [n]) = none := by
  cases hc : entryAt fs (d ++ [n]) with
  | none => rfl
  | some e =>
    exfalso
    have hne : d ++ [n] ≠ [] := by simp
    have hdl : (d ++ [n]).dropLast = d := by
      rw [List.dropLast_append_of_ne_nil d (by simp)]
      simp
    rcases wf_entry_parent_dir hwf hne hc with h1 | h1
    · rw [hdl] at h1
      exact hd h1
    · rw [hdl] at h1
      rw [h1] at h
      exact Option.noConfusion h

theorem dropLast_append_singleton (ld : FPath) (n : Name) :
    (ld ++ [n]).dropLast = ld := by
  rw [List.dropLast_append_of_ne_nil ld (by simp)]
  simp

theorem append_singleton_ne {ld : FPath} {a b : Name} (h : a ≠ b) :
    ld ++ [a] ≠ ld ++ [b] := by
  intro hc
  have := append_cancel_left_eq hc
  simp at this
  exact h this

theorem openTrunc_ok {fs : FS} {p : FPath} (hp : p ≠ [])
    (hnotdir : entryAt fs p ≠ some Entry.dir)
    (hpar : entryAt fs p.dropLast = some Entry.dir) :
    openTrunc fs p = Except.ok (setEntry fs p (Entry.file [])) := by
  unfold openTrunc
  cases hc : entryAt fs p with
  | some e =>
    cases e with
    | dir => exact absurd hc hnotdir
    | file c => rfl
  | none => rw [hpar]

theorem ne_append_singleton (ld : FPath) (n : Name) : ld ≠ ld ++ [n] := by
  intro hc
  have := append_eq_self_iff.mp hc.symm
  exact List.noConfusion this

theorem stdout_stderr_name_ne : stdoutLogName ≠ stderrLogName := by decide

theorem stdout_exit_name_ne : stdoutLogName ≠ exitCodeName := by decide

theorem stderr_exit_name_ne : stderrLogName ≠ exitCodeName := by decide

theorem run_protocol_failure_eq {fs : FS} {ld root : FPath} {script : Name}
    (hldne : ld ≠ []) (hld : entryAt fs ld = some Entry.dir)
    (hout : entryAt fs (ld ++ [stdoutLogName]) ≠ some Entry.dir)
    (herr : entryAt fs (ld ++ [stderrLogName]) ≠ some Entry.dir) :
    run_protocol root script (some ld) LaunchOutcome.failure fs =
      (setEntry (setEntry fs (ld ++ [stdoutLogName]) (Entry.file []))
        (ld ++ [stderrLogName]) (Entry.file []),
       Except.error PyErr.launchFailure) := by
  have hex : fsExists fs ld = true := by simp [fsExists, hld]
  have hdir : fsIsDir fs ld = true := by simp [fsIsDir, hld]
  have hopen1 : openTrunc fs (ld ++ [stdoutLogName]) =
      Except.ok (setEntry fs (ld ++ [stdoutLogName]) (Entry.file [])) :=
    openTrunc_ok (by simp) hout (by rw [dropLast_append_singleton]; exact hld)
  have herr2 : entryAt (setEntry fs (ld ++ [stdoutLogName]) (Entry.file []))
      (ld ++ [stderrLogName]) = entryAt fs (ld ++ [stderrLogName]) :=
    entryAt_set_other (append_singleton_ne stdout_stderr_name_ne.symm)
  have hld2 : entryAt (setEntry fs (ld ++ [stdoutLogName]) (Entry.file []))
      ld = some Entry.dir := by
    rw [entryAt_set_other (ne_append_singleton ld _)]
    exact hld
  have hopen2 : openTrunc (setEntry fs (ld ++ [stdoutLogName]) (Entry.file []))
      (ld ++ [stderrLogName]) =
      Except.ok (setEntry (setEntry fs (ld ++ [stdoutLogName]) (Entry.file []))
        (ld ++ [stderrLogName]) (Entry.file [])) := by
    apply openTrunc_ok (by simp)
    · rw [herr2]
      exact herr
    · rw [dropLast_append_singleton]
      exact hld2
  simp only [run_protocol, hex, hdir, Bool.not_true, Bool.false_eq_true,
    if_false, hopen1, hopen2]

theorem run_protocol_success_eq {fs : FS} {ld root : FPath} {script : Name}
    {code : Int} {outc errc : List Char}
    (hldne : ld ≠ []) (hld : entryAt fs ld = some Entry.dir)
    (hout : entryAt fs (ld ++ [stdoutLogName]) ≠ some Entry.dir)
    (herr : entryAt fs (ld ++ [stderrLogName]) ≠ some Entry.dir)
    (hec : entryAt fs (ld ++ [exitCodeName]) ≠ some Entry.dir) :
    run_protocol root script (some ld) (LaunchOutcome.success code outc errc) fs =
      (setEntry (setEntry (setEntry (setEntry (setEntry (setEntry fs
          (ld ++ [stdoutLogName]) (Entry.file []))
          (ld ++ [stderrLogName]) (Entry.file []))
          (ld ++ [stdoutLogName]) (Entry.file outc))
          (ld ++ [stderrLogName]) (Entry.file errc))
          (ld ++ [exitCodeName]) (Entry.file []))
          (ld ++ [exitCodeName]) (Entry.file (renderInt code ++ ['\n'])),
       Except.ok code) := by
  have hex : fsExists fs ld = true := by simp [fsExists, hld]
  have hdir : fsIsDir fs ld = true := by simp [fsIsDir, hld]
  have hopen1 : openTrunc fs (ld ++ [stdoutLogName]) =
      Except.ok (setEntry fs (ld ++ [stdoutLogName]) (Entry.file [])) :=
    openTrunc_ok (by simp) hout (by rw [dropLast_append_singleton]; exact hld)
  have herr2 : entryAt (setEntry fs (ld ++ [stdoutLogName]) (Entry.file []))
      (ld ++ [stderrLogName]) = entryAt fs (ld ++ [stderrLogName]) :=
    entryAt_set_other (append_singleton_ne stdout_stderr_name_ne.symm)
  have hld2 : entryAt (setEntry fs (ld ++ [stdoutLogName]) (Entry.file []))
      ld = some Entry.dir := by
    rw [entryAt_set_other (ne_append_singleton ld _)]
    exact hld
  have hopen2 : openTrunc (setEntry fs (ld ++ [stdoutLogName]) (Entry.file []))
      (ld ++ [stderrLogName]) =
      Except.ok (setEntry (setEntry fs (ld ++ [stdoutLogName]) (Entry.file []))
        (ld ++ [stderrLogName]) (Entry.file [])) := by
    apply openTrunc_ok (by simp)
    · rw [herr2]
      exact herr
    · rw [dropLast_append_singleton]
      exact hld2
  have hec4 : entryAt (setEntry (setEntry (setEntry (setEntry fs
      (ld ++ [stdoutLogName]) (Entry.file []))
      (ld ++ [stderrLogName]) (Entry.file []))
      (ld ++ [stdoutLogName]) (Entry.file outc))
      (ld ++ [stderrLogName]) (Entry.file errc))
      (ld ++ [exitCodeName]) = entryAt fs (ld ++ [exitCodeName]) := by
    rw [entryAt_set_other (append_singleton_ne stderr_exit_name_ne.symm),
      entryAt_set_other (append_singleton_ne stdout_exit_name_ne.symm),
      entryAt_set_other (append_singleton_ne stderr_exit_name_ne.symm),
      entryAt_set_other (append_singleton_ne stdout_exit_name_ne.symm)]
  have hld4 : entryAt (setEntry (setEntry (setEntry (setEntry fs
      (ld ++ [stdoutLogName]) (Entry.file []))
      (ld ++ [stderrLogName]) (Entry.file []))
      (ld ++ [stdoutLogName]) (Entry.file outc))
      (ld ++ [stderrLogName]) (Entry.file errc)) ld = some Entry.dir := by
    rw [entryAt_set_other (ne_append_singleton ld _),
      entryAt_set_other (ne_append_singleton ld _),
      entryAt_set_other (ne_append_singleton ld _),
      entryAt_set_other (ne_append_singleton ld _)]
    exact hld
  have hopen3 : openTrunc (setEntry (setEntry (setEntry (setEntry fs
      (ld ++ [stdoutLogName]) (Entry.file []))
      (ld ++ [stderrLogName]) (Entry.file []))
      (ld ++ [stdoutLogName]) (Entry.file outc))
      (ld ++ [stderrLogName]) (Entry.file errc)) (ld ++ [exitCodeName]) =
      Except.ok (setEntry (setEntry (setEntry (setEntry (setEntry fs
        (ld ++ [stdoutLogName]) (Entry.file []))
        (ld ++ [stderrLogName]) (Entry.file []))
        (ld ++ [stdoutLogName]) (Entry.file outc))
        (ld ++ [stderrLogName]) (Entry.file errc))
        (ld ++ [exitCodeName]) (Entry.file [])) := by
    apply openTrunc_ok (by simp)
    · rw [hec4]
      exact hec
    · rw [dropLast_append_singleton]
      exact hld4
  simp only [run_protocol, hex, hdir, Bool.not_true, Bool.false_eq_true,
    if_false, hopen1, hopen2, hopen3]

theorem exit_code_of_cache {p : Protocol} {c : Int} (fs : FS)
    (h : p.exitCodeCache = some c) :
    Protocol.exit_code p fs = Except.ok (some c, p) := by
  simp [Protocol.exit_code, h]

theorem exit_code_result_cache {p p1 : Protocol} {fs : FS} {c : Int}
    (h : Protocol.exit_code p fs = Except.ok (some c, p1)) :
    p1.exitCodeCache = some c := by
  unfold Protocol.exit_code at h
  cases hc : p.exitCodeCache with
  | some c0 =>
    rw [hc] at h
    simp at h
    rw [← h.2, hc, h.1]
  | none =>
    rw [hc] at h
    cases he : entryAt fs p.exit_code_path with
    | none =>
      rw [he] at h
      simp at h
    | some e =>
      rw [he] at h
      cases e with
      | dir => simp at h
      | file content =>
        cases hp : parseIntChars content with
        | none => simp [hp] at h
        | some c0 =>
          simp [hp] at h
          rw [← h.2]
          simp [h.1]

theorem run_false_known {p p1 : Protocol} {fs : FS} {c : Int}
    (hknown : Protocol.exit_code p fs = Except.ok (some c, p1))
    (launch : LaunchOutcome) :
    Protocol.run p false launch fs = (fs, p1, Except.ok ()) := by
  simp [Protocol.run, hknown]

theorem run_reaches_branch {p : Protocol} {fs : FS} {force : Bool}
    (launch : LaunchOutcome)
    (hstart : force = true ∨ Protocol.exit_code p fs = Except.ok (none, p)) :
    Protocol.run p force launch fs = runBranch p launch fs := by
  cases force with
  | true => simp [Protocol.run]
  | false =>
    rcases hstart with h | h
    · exact absurd h (by simp)
    · simp [Protocol.run, h]

/-- C3: for a `Protocol` whose exit code is already known (cached in memory
or readable from the on-disk `EXIT_CODE` record), `run()` with `force=false`
is a no-op — the filesystem is untouched whatever the launch oracle would
do, and `exit_code` still reads the same value — while `run()` with
`force=true` re-invokes the script even though an exit code is known,
re-recording the new exit code. -/
theorem C3_run_noop_when_known_force_reruns
    (p p1 : Protocol) (fs : FS) (c : Int)
    (hknown : Protocol.exit_code p fs = Except.ok (some c, p1))
    (hldne : p.log_directory ≠ [])
    (hld : entryAt fs p.log_directory = some Entry.dir)
    (hout : entryAt fs p.stdout_path ≠ some Entry.dir)
    (herr : entryAt fs p.stderr_path ≠ some Entry.dir)
    (hec : entryAt fs p.exit_code_path ≠ some Entry.dir) :
    (∀ launch, Protocol.run p false launch fs = (fs, p1, Except.ok ())) ∧
    Protocol.exit_code p1 fs = Except.ok (some c, p1) ∧
    (∀ (code : Int) (outc errc : List Char), ∃ fs',
      Protocol.run p true (LaunchOutcome.success code outc errc) fs =
        (fs', { p with exitCodeCache := some code }, Except.ok ()) ∧
      entryAt fs' p.exit_code_path =
        some (Entry.file (renderInt code ++ ['\n']))) := by
  refine ⟨fun launch => run_false_known hknown launch,
    exit_code_of_cache fs (exit_code_result_cache hknown), ?_⟩
  intro code outc errc
  have heq := @run_protocol_success_eq fs p.log_directory p.root p.script
    code outc errc hldne hld hout herr hec
  have hfact : Protocol.run p true (LaunchOutcome.success code outc errc) fs =
      (setEntry (setEntry (setEntry (setEntry (setEntry (setEntry fs
          (p.log_directory ++ [stdoutLogName]) (Entry.file []))
          (p.log_directory ++ [stderrLogName]) (Entry.file []))
          (p.log_directory ++ [stdoutLogName]) (Entry.file outc))
          (p.log_directory ++ [stderrLogName]) (Entry.file errc))
          (p.log_directory ++ [exitCodeName]) (Entry.file []))
          (p.log_directory ++ [exitCodeName])
          (Entry.file (renderInt code ++ ['\n'])),
       { p with exitCodeCache := some code }, Except.ok ()) := by
    simp only [Protocol.run, if_pos rfl, if_true, runBranch, heq]
  exact ⟨_, hfact, entryAt_set_self _ (by simp [Protocol.exit_code_path])⟩

/-- C4: when `run()` completes with the script exiting `0`, the exit code
reads back as `0` both from the same instance's in-memory cache and, through
the plain-text `EXIT_CODE` record on disk, from a freshly constructed
`Protocol` for the same root and metadata. -/
theorem C4_exit_zero_round_trip
    (p p' : Protocol) (fs fs' : FS) (outc errc : List Char) (force : Bool)
    (hstart : force = true ∨ Protocol.exit_code p fs = Except.ok (none, p))
    (hldne : p.log_directory ≠ [])
    (hld : entryAt fs p.log_directory = some Entry.dir)
    (hout : entryAt fs p.stdout_path ≠ some Entry.dir)
    (herr : entryAt fs p.stderr_path ≠ some Entry.dir)
    (hec : entryAt fs p.exit_code_path ≠ some Entry.dir)
    (hrun : Protocol.run p force (LaunchOutcome.success 0 outc errc) fs =
      (fs', p', Except.ok ())) :
    Protocol.exit_code p' fs' = Except.ok (some 0, p') ∧
    (∀ q : Protocol, q.root = p.root → q.meta = p.meta →
      q.exitCodeCache = none →
      Protocol.exit_code q fs' =
        Except.ok (some 0, { q with exitCodeCache := some 0 })) := by
  have heq := @run_protocol_success_eq fs p.log_directory p.root p.script
    0 outc errc hldne hld hout herr hec
  rw [run_reaches_branch _ hstart] at hrun
  rw [runBranch, heq] at hrun
  simp only [Prod.mk.injEq] at hrun
  obtain ⟨hfs', hp', -⟩ := hrun
  have hcache : p'.exitCodeCache = some 0 := by
    rw [← hp']
  have hecfile : entryAt fs' p.exit_code_path =
      some (Entry.file (renderInt 0 ++ ['\n'])) := by
    rw [← hfs']
    exact entryAt_set_self _ (by simp [Protocol.exit_code_path])
  refine ⟨exit_code_of_cache fs' hcache, ?_⟩
  intro q hroot hmeta hqcache
  have hqpath : q.exit_code_path = p.exit_code_path := by
    simp [Protocol.exit_code_path, Protocol.log_directory, hroot, hmeta]
  rw [Protocol.exit_code, hqcache, hqpath, hecfile]
  norm_num [show parseIntChars (renderInt 0 ++ ['\n']) = some 0 from by decide]

/-- C7: a freshly constructed `Protocol` whose log directory does not exist
on disk reports `exit_code = None`, and both `stdout` and `stderr` access
fail with the `ProtocolNotRun` signal. -/
theorem C7_fresh_protocol_not_run
    (p : Protocol) (fs : FS)
    (hwf : wfB fs = true)
    (hfresh : p.exitCodeCache = none)
    (hldne : p.log_directory ≠ [])
    (hnolog : entryAt fs p.log_directory = none) :
    Protocol.exit_code p fs = Except.ok (none, p) ∧
    Protocol.stdout p fs = Except.error PyErr.protocolNotRun ∧
    Protocol.stderr p fs = Except.error PyErr.protocolNotRun := by
  have hecn : entryAt fs p.exit_code_path = none :=
    entryAt_none_child hwf hldne hnolog exitCodeName
  have houtn : entryAt fs p.stdout_path = none :=
    entryAt_none_child hwf hldne hnolog stdoutLogName
  have herrn : entryAt fs p.stderr_path = none :=
    entryAt_none_child hwf hldne hnolog stderrLogName
  refine ⟨?_, ?_, ?_⟩
  · rw [Protocol.exit_code, hfresh, hecn]
  · rw [Protocol.stdout, houtn]
  · rw [Protocol.stderr, herrn]

/-- C8: when launching the child script itself fails, `run()` propagates the
failure as a distinct error; no `EXIT_CODE` record is written and the
in-memory exit-code cache is left untouched by the failed run. -/
theorem C8_launch_failure_propagates
    (p p' : Protocol) (fs fs' : FS) (res : Except PyErr Unit) (force : Bool)
    (hstart : force = true ∨ Protocol.exit_code p fs = Except.ok (none, p))
    (hldne : p.log_directory ≠ [])
    (hld : entryAt fs p.log_directory = some Entry.dir)
    (hout : entryAt fs p.stdout_path ≠ some Entry.dir)
    (herr : entryAt fs p.stderr_path ≠ some Entry.dir)
    (hrun : Protocol.run p force LaunchOutcome.failure fs = (fs', p', res)) :
    res = Except.error PyErr.launchFailure ∧ p' = p ∧
    entryAt fs' p.exit_code_path = entryAt fs p.exit_code_path := by
  have heq := @run_protocol_failure_eq fs p.log_directory p.root p.script
    hldne hld hout herr
  rw [run_reaches_branch _ hstart] at hrun
  rw [runBranch, heq] at hrun
  simp only [Prod.mk.injEq] at hrun
  obtain ⟨hfs', hp', hres⟩ := hrun
  refine ⟨hres.symm, hp'.symm, ?_⟩
  rw [← hfs']
  simp only [Protocol.exit_code_path]
  rw [entryAt_set_other (append_singleton_ne stderr_exit_name_ne.symm),
    entryAt_set_other (append_singleton_ne stdout_exit_name_ne.symm)]

/-- C10: when `run()` proceeds past log-directory handling but the launch
then fails, both log files have already been created and truncated, so
`stdout`/`stderr` afterwards yield an empty stream rather than raising
`ProtocolNotRun`, while `exit_code` is still `None`. -/
theorem C10_failed_launch_leaves_empty_logs
    (p p' : Protocol) (fs fs' : FS) (res : Except PyErr Unit) (force : Bool)
    (hstart : force = true ∨ Protocol.exit_code p fs = Except.ok (none, p))
    (hcache : p.exitCodeCache = none)
    (hldne : p.log_directory ≠ [])
    (hld : entryAt fs p.log_directory = some Entry.dir)
    (hout : entryAt fs p.stdout_path ≠ some Entry.dir)
    (herr : entryAt fs p.stderr_path ≠ some Entry.dir)
    (hecnone : entryAt fs p.exit_code_path = none)
    (hrun : Protocol.run p force LaunchOutcome.failure fs = (fs', p', res)) :
    entryAt fs' p.stdout_path = some (Entry.file []) ∧
    entryAt fs' p.stderr_path = some (Entry.file []) ∧
    Protocol.stdout p' fs' = Except.ok [] ∧
    Protocol.stderr p' fs' = Except.ok [] ∧
    Protocol.exit_code p' fs' = Except.ok (none, p') := by
  have heq := @run_protocol_failure_eq fs p.log_directory p.root p.script
    hldne hld hout herr
  rw [run_reaches_branch _ hstart] at hrun
  rw [runBranch, heq] at hrun
  simp only [Prod.mk.injEq] at hrun
  obtain ⟨hfs', hp', hres⟩ := hrun
  have houtfile : entryAt fs' p.stdout_path = some (Entry.file []) := by
    rw [← hfs']
    simp only [Protocol.stdout_path]
    rw [entryAt_set_other (append_singleton_ne stdout_stderr_name_ne)]
    exact entryAt_set_self _ (by simp)
  have herrfile : entryAt fs' p.stderr_path = some (Entry.file []) := by
    rw [← hfs']
    simp only [Protocol.stderr_path]
    exact entryAt_set_self _ (by simp)
  have hecn : entryAt fs' p.exit_code_path = none := by
    rw [← hfs']
    simp only [Protocol.exit_code_path]
    rw [entryAt_set_other (append_singleton_ne stderr_exit_name_ne.symm),
      entryAt_set_other (append_singleton_ne stdout_exit_name_ne.symm)]
    exact hecnone
  subst hp'
  refine ⟨houtfile, herrfile, ?_, ?_, ?_⟩
  · rw [Protocol.stdout, houtfile]
    rfl
  · rw [Protocol.stderr, herrfile]
    rfl
  · rw [Protocol.exit_code, hcache, hecn]

/-- Witness for C3: with a cached exit code, an unforced run leaves the
filesystem and protocol untouched. -/
theorem C3_witness :
    Protocol.run sampleProtKnown false LaunchOutcome.failure sampleFSL =
      (sampleFSL, sampleProtKnown, Except.ok ()) :=
  (C3_run_noop_when_known_force_reruns sampleProtKnown sampleProtKnown
    sampleFSL 7 (by decide) (by decide) (by decide) (by decide) (by decide)
    (by decide)).1 LaunchOutcome.failure

/-- Witness for C4: after a forced run exiting 0, the cache reads 0. -/
theorem C4_witness :
    Protocol.exit_code sampleRunResult.2.1 sampleRunResult.1 =
      Except.ok (some 0, sampleRunResult.2.1) :=
  (C4_exit_zero_round_trip sampleProt sampleRunResult.2.1 sampleFSL
    sampleRunResult.1 ("ok".toList) [] true (Or.inl rfl) (by decide)
    (by decide) (by decide) (by decide) (by decide) (by decide)).1

/-- Witness for C7: without a log directory the exit code reads `none`. -/
theorem C7_witness :
    Protocol.exit_code sampleProt sampleFS0 = Except.ok (none, sampleProt) :=
  (C7_fresh_protocol_not_run sampleProt sampleFS0 (by decide) rfl (by decide)
    (by decide)).1

/-- Witness for C8: a failed launch surfaces as `launchFailure`. -/
theorem C8_witness :
    failRunResult.2.2 = Except.error PyErr.launchFailure :=
  (C8_launch_failure_propagates sampleProt failRunResult.2.1 sampleFSL
    failRunResult.1 failRunResult.2.2 true (Or.inl rfl) (by decide) (by decide)
    (by decide) (by decide) rfl).1

/-- Witness for C10: after a failed launch, stdout is an empty stream. -/
theorem C10_witness :
    Protocol.stdout failRunResult.2.1 failRunResult.1 = Except.ok [] :=
  (C10_failed_launch_leaves_empty_logs sampleProt failRunResult.2.1 sampleFSL
    failRunResult.1 failRunResult.2.2 true (Or.inl rfl) rfl (by decide)
    (by decide) (by decide) (by decide) (by decide) rfl).2.2.1

/-- C6 counterexample: with a nonexistent source path, `overlay_directories`
fails with `NotADirectoryError` (which names the source), not with the
`FileNotFoundError` the claim states. -/
theorem C6_counterexample :
    overlay_directories [] [["missing".toList]] ["dest".toList] [] =
      Except.error (PyErr.notADirectory [["missing".toList]]) ∧
    overlay_directories [] [["missing".toList]] ["dest".toList] [] ≠
      Except.error PyErr.fileNotFound := by
  decide

/-- C6 (amended): a source that is missing, like one that exists but is not
a directory, makes `overlay_directories` fail with `NotADirectory` (Python's
`is_dir()` is false for missing paths), and the error names every offending
source path. -/
theorem C6_amended_bad_sources_not_a_directory
    (fs : FS) (sources : List FPath) (destination : FPath)
    (ignore : List Motif)
    (hbad : sources.filter (fun p => !(fsIsDir fs p)) ≠ []) :
    overlay_directories fs sources destination ignore =
      Except.error (PyErr.notADirectory
        (sources.filter (fun p => !(fsIsDir fs p)))) := by
  simp only [overlay_directories]
  rw [if_pos hbad]

/-- Witness for the amended C6 at a concrete nonexistent source. -/
theorem C6_witness :
    overlay_directories [] [["missing".toList]] ["dest".toList] [] =
      Except.error (PyErr.notADirectory [["missing".toList]]) :=
  C6_amended_bad_sources_not_a_directory [] [["missing".toList]]
    ["dest".toList] [] (by decide)

theorem ensureDirs_preserves {todo : List Name} :
    ∀ {fs fs' : FS} {pre : FPath}, ensureDirs fs pre todo = Except.ok fs' →
    ∀ w e, entryAt fs w = some e → entryAt fs' w = some e := by
  induction todo with
  | nil =>
    intro fs fs' pre h w e hw
    unfold ensureDirs at h
    injection h with h
    exact h ▸ hw
  | cons n rest ih =>
    intro fs fs' pre h w e hw
    unfold ensureDirs at h
    cases hc : entryAt fs (pre ++ [n]) with
    | some e0 =>
      rw [hc] at h
      cases e0 with
      | dir => exact ih h w e hw
      | file c => simp at h
    | none =>
      rw [hc] at h
      have hne : w ≠ pre ++ [n] := by
        intro hceq
        rw [hceq, hc] at hw
        exact Option.noConfusion hw
      exact ih h w e (by rw [entryAt_set_other hne]; exact hw)

theorem ensureDirs_frame {todo : List Name} :
    ∀ {fs fs' : FS} {pre : FPath}, ensureDirs fs pre todo = Except.ok fs' →
    ∀ w, ¬ w <+: pre ++ todo → entryAt fs' w = entryAt fs w := by
  induction todo with
  | nil =>
    intro fs fs' pre h w _
    unfold ensureDirs at h
    injection h with h
    rw [h]
  | cons n rest ih =>
    intro fs fs' pre h w hw
    have hw' : ¬ w <+: (pre ++ [n]) ++ rest := by
      rw [List.append_assoc]
      simpa using hw
    have hwne : w ≠ pre ++ [n] := by
      intro hceq
      exact hw' (hceq ▸ List.prefix_append _ _)
    unfold ensureDirs at h
    cases hc : entryAt fs (pre ++ [n]) with
    | some e0 =>
      rw [hc] at h
      cases e0 with
      | dir => exact ih h w hw'
      | file c => simp at h
    | none =>
      rw [hc] at h
      rw [ih h w hw']
      exact entryAt_set_other hwne

theorem ensureDirs_target_dir {todo : List Name} :
    ∀ {fs fs' : FS} {pre : FPath}, todo ≠ [] →
    ensureDirs fs pre todo = Except.ok fs' →
    entryAt fs' (pre ++ todo) = some Entry.dir := by
  induction todo with
  | nil => intro fs fs' pre h _; exact absurd rfl h
  | cons n rest ih =>
    intro fs fs' pre _ h
    unfold ensureDirs at h
    have hassoc : pre ++ n :: rest = (pre ++ [n]) ++ rest := by simp
    cases hrest : rest.isEmpty with
    | true =>
      have hr : rest = [] := List.isEmpty_iff.mp hrest
      subst hr
      cases hc : entryAt fs (pre ++ [n]) with
      | some e0 =>
        rw [hc] at h
        cases e0 with
        | dir =>
          unfold ensureDirs at h
          injection h with h
          rw [hassoc, List.append_nil]
          rw [← h]
          exact hc
        | file c => simp at h
      | none =>
        rw [hc] at h
        unfold ensureDirs at h
        injection h with h
        rw [hassoc, List.append_nil, ← h]
        exact entryAt_set_self _ (by simp)
    | false =>
      have hr : rest ≠ [] := by
        intro hc
        rw [hc] at hrest
        simp at hrest
      cases hc : entryAt fs (pre ++ [n]) with
      | some e0 =>
        rw [hc] at h
        cases e0 with
        | dir =>
          rw [hassoc]
          exact ih hr h
        | file c => simp at h
      | none =>
        rw [hc] at h
        rw [hassoc]
        exact ih hr h

theorem ensureDirs_keys {todo : List Name} :
    ∀ {fs fs' : FS} {pre : FPath}, ensureDirs fs pre todo = Except.ok fs' →
    ∃ new, fsKeys fs' = fsKeys fs ++ new ∧ ∀ k ∈ new, k <+: pre ++ todo := by
  induction todo with
  | nil =>
    intro fs fs' pre h
    unfold ensureDirs at h
    injection h with h
    exact ⟨[], by simp [h], by simp⟩
  | cons n rest ih =>
    intro fs fs' pre h
    unfold ensureDirs at h
    have hassoc : pre ++ n :: rest = (pre ++ [n]) ++ rest := by simp
    cases hc : entryAt fs (pre ++ [n]) with
    | some e0 =>
      rw [hc] at h
      cases e0 with
      | dir =>
        obtain ⟨new, hkeys, hpfx⟩ := ih h
        exact ⟨new, hkeys, fun k hk => hassoc ▸ hpfx k hk⟩
      | file c => simp at h
    | none =>
      rw [hc] at h
      obtain ⟨new, hkeys, hpfx⟩ := ih h
      have hsk : fsKeys (setEntry fs (pre ++ [n]) Entry.dir) =
          fsKeys fs ++ [pre ++ [n]] := by
        apply keysOf_set_of_not_mem
        intro hmem
        have := @entryAt_isSome_of_mem_keys fs _ hmem
        rw [hc] at this
        exact Bool.noConfusion this
      refine ⟨(pre ++ [n]) :: new, ?_, ?_⟩
      · rw [hkeys, hsk]
        simp
      · intro k hk
        rcases List.mem_cons.mp hk with h1 | h1
        · subst h1
          rw [hassoc]
          exact List.prefix_append _ _
        · exact hassoc ▸ hpfx k h1

theorem ensureDirs_nodup {todo : List Name} :
    ∀ {fs fs' : FS} {pre : FPath}, ensureDirs fs pre todo = Except.ok fs' →
    keysNodup fs → keysNodup fs' := by
  induction todo with
  | nil =>
    intro fs fs' pre h hnd
    unfold ensureDirs at h
    injection h with h
    exact h ▸ hnd
  | cons n rest ih =>
    intro fs fs' pre h hnd
    unfold ensureDirs at h
    cases hc : entryAt fs (pre ++ [n]) with
    | some e0 =>
      rw [hc] at h
      cases e0 with
      | dir => exact ih h hnd
      | file c => simp at h
    | none =>
      rw [hc] at h
      exact ih h (keysNodup_setEntry _ _ hnd)

theorem mkdirParents_ok_parts {fs fs' : FS} {p : FPath}
    (h : mkdirParents fs p = Except.ok fs') :
    (entryAt fs p).isSome = false ∧ ensureDirs fs [] p = Except.ok fs' := by
  unfold mkdirParents at h
  by_cases hex : (entryAt fs p).isSome = true
  · rw [if_pos hex] at h
    exact absurd h (by simp)
  · rw [if_neg hex] at h
    exact ⟨Bool.not_eq_true _ ▸ hex, h⟩

theorem overlay_ok_parts {fs : FS} {sources : List FPath} {destination : FPath}
    {ignore : List Motif} {fs' : FS}
    (hok : overlay_directories fs sources destination ignore = Except.ok fs') :
    sources.filter (fun p => !(fsIsDir fs p)) = [] ∧
    ¬ (fsExists fs destination = true ∧ fsIsDir fs destination = false) ∧
    ∃ fs0, (if fsExists fs destination then Except.ok fs
            else mkdirParents fs destination) = Except.ok fs0 ∧
      materialize destination (buildTable fs sources ignore) fs0 =
        Except.ok fs' := by
  simp only [overlay_directories] at hok
  by_cases h1 : sources.filter (fun p => !(fsIsDir fs p)) = []
  · rw [if_neg (not_not_intro h1)] at hok
    by_cases h2 : (fsExists fs destination && !(fsIsDir fs destination)) = true
    · rw [if_pos h2] at hok
      exact absurd hok (by simp)
    · rw [if_neg h2] at hok
      cases hd : (if fsExists fs destination then Except.ok fs
          else mkdirParents fs destination) with
      | error e =>
        rw [hd] at hok
        simp at hok
      | ok fs0 =>
        rw [hd] at hok
        refine ⟨h1, ?_, fs0, rfl, hok⟩
        rintro ⟨hex, hdir⟩
        exact h2 (by simp [hex, hdir])
  · rw [if_pos h1] at hok
    exact absurd hok (by simp)

theorem overlay_fs0_facts {fs fs0 : FS} {destination : FPath}
    (hd : (if fsExists fs destination then Except.ok fs
           else mkdirParents fs destination) = Except.ok fs0)
    (hdest : ¬ (fsExists fs destination = true ∧
      fsIsDir fs destination = false)) :
    entryAt fs0 destination = some Entry.dir ∧
    (∀ w e, entryAt fs w = some e → entryAt fs0 w = some e) ∧
    (∀ w, ¬ w <+: destination → entryAt fs0 w = entryAt fs w) ∧
    (∃ new, fsKeys fs0 = fsKeys fs ++ new ∧ ∀ k ∈ new, k <+: destination) ∧
    (keysNodup fs → keysNodup fs0) := by
  by_cases hex : fsExists fs destination = true
  · rw [if_pos hex] at hd
    injection hd with hd
    subst hd
    have hdir : fsIsDir fs destination = true := by
      by_contra hc
      exact hdest ⟨hex, Bool.not_eq_true _ ▸ hc⟩
    have hentry : entryAt fs destination = some Entry.dir := by
      unfold fsIsDir at hdir
      cases hc : entryAt fs destination with
      | none => rw [hc] at hdir; exact Bool.noConfusion hdir
      | some e =>
        cases e with
        | dir => rfl
        | file c => rw [hc] at hdir; exact Bool.noConfusion hdir
    exact ⟨hentry, fun w e hw => hw, fun w _ => rfl,
      ⟨[], by simp, by simp⟩, fun h => h⟩
  · rw [if_neg hex] at hd
    obtain ⟨habs, hens⟩ := mkdirParents_ok_parts hd
    have hpne : destination ≠ [] := by
      intro hc
      subst hc
      rw [entryAt_nil_path] at habs
      exact Bool.noConfusion habs
    refine ⟨?_, ?_, ?_, ?_, ?_⟩
    · have := ensureDirs_target_dir hpne hens
      simpa using this
    · intro w e hw
      exact ensureDirs_preserves hens w e hw
    · intro w hw
      exact ensureDirs_frame hens w (by simpa using hw)
    · obtain ⟨new, hkeys, hpfx⟩ := ensureDirs_keys hens
      exact ⟨new, hkeys, fun k hk => by simpa using hpfx k hk⟩
    · intro hnd
      exact ensureDirs_nodup hens hnd

theorem mkdirOne_ok_parts {fs fs' : FS} {p : FPath}
    (h : mkdirOne fs p = Except.ok fs') :
    entryAt fs p = none ∧ entryAt fs p.dropLast = some Entry.dir ∧
    fs' = setEntry fs p Entry.dir := by
  unfold mkdirOne at h
  by_cases hex : (entryAt fs p).isSome = true
  · rw [if_pos hex] at h
    simp at h
  · rw [if_neg hex] at h
    cases hc : entryAt fs p.dropLast with
    | none =>
      rw [hc] at h
      simp at h
    | some e =>
      rw [hc] at h
      cases e with
      | dir =>
        injection h with h
        exact ⟨Option.not_isSome_iff_eq_none.mp (fun hs => hex hs), rfl, h.symm⟩
      | file c => simp at h

theorem fsKeys_setEntry_ext (fs : FS) (p : FPath) (e : Entry) :
    ∃ new, fsKeys (setEntry fs p e) = fsKeys fs ++ new ∧
      ∀ k ∈ new, k = p := by
  by_cases hmem : p ∈ fsKeys fs
  · exact ⟨[], by simp [fsKeys, setEntry, keysOf_set_of_mem hmem], by simp⟩
  · exact ⟨[p], by simp [fsKeys, setEntry, keysOf_set_of_not_mem hmem], by simp⟩

theorem shutilCopy_ok_shape {fs fs' : FS} {src dst : FPath}
    (h : shutilCopy fs src dst = Except.ok fs') :
    ∃ c, entryAt fs src = some (Entry.file c) ∧
      (fs' = setEntry fs (dst ++ [src.getLastD []]) (Entry.file c) ∨
       fs' = setEntry fs dst (Entry.file c)) := by
  unfold shutilCopy at h
  cases hsrc : entryAt fs src with
  | none =>
    simp only [hsrc] at h
    exact Except.noConfusion h
  | some e =>
    simp only [hsrc] at h
    cases e with
    | dir => exact Except.noConfusion h
    | file c =>
      refine ⟨c, rfl, ?_⟩
      cases hdst : entryAt fs dst with
      | some e0 =>
        simp only [hdst] at h
        cases e0 with
        | dir =>
          cases htgt : entryAt fs (dst ++ [src.getLastD []]) with
          | some e1 =>
            simp only [htgt] at h
            cases e1 with
            | dir => exact Except.noConfusion h
            | file c1 =>
              injection h with h
              exact Or.inl h.symm
          | none =>
            simp only [htgt] at h
            injection h with h
            exact Or.inl h.symm
        | file c0 =>
          injection h with h
          exact Or.inr h.symm
      | none =>
        simp only [hdst] at h
        cases hpar : entryAt fs dst.dropLast with
        | none =>
          simp only [hpar] at h
          exact Except.noConfusion h
        | some e0 =>
          simp only [hpar] at h
          cases e0 with
          | dir =>
            injection h with h
            exact Or.inr h.symm
          | file c0 => exact Except.noConfusion h

theorem copyOne_preserves {fs fs' : FS} {destination : FPath}
    {item : FPath × FPath} (h : copyOne fs destination item = Except.ok fs') :
    ∀ w e, entryAt fs w = some e → w ≠ destination ++ item.1 →
      w ≠ destination ++ item.1 ++ [item.2.getLastD []] →
      entryAt fs' w = some e := by
  intro w e hw hw1 hw2
  unfold copyOne at h
  by_cases hdir : fsIsDir fs item.2 = true
  · rw [if_pos hdir] at h
    by_cases hex : fsExists fs (destination ++ item.1) = true
    · rw [if_pos hex] at h
      injection h with h
      exact h ▸ hw
    · rw [if_neg hex] at h
      obtain ⟨-, -, hset⟩ := mkdirOne_ok_parts h
      rw [hset, entryAt_set_other hw1]
      exact hw
  · rw [if_neg hdir] at h
    by_cases hex : fsExists fs (destination ++ item.1).dropLast = true
    · rw [if_pos hex] at h
      obtain ⟨c, hsrc, hshape⟩ := shutilCopy_ok_shape h
      rcases hshape with h1 | h1
      · rw [h1, entryAt_set_other (by rw [List.append_assoc] at hw2 ⊢; exact hw2)]
        exact hw
      · rw [h1, entryAt_set_other hw1]
        exact hw
    · rw [if_neg hex] at h
      cases hmk : mkdirOne fs (destination ++ item.1).dropLast with
      | error e0 =>
        rw [hmk] at h
        simp at h
      | ok fs1 =>
        rw [hmk] at h
        obtain ⟨habs, -, hset⟩ := mkdirOne_ok_parts hmk
        have hwne : w ≠ (destination ++ item.1).dropLast := by
          intro hc
          rw [hc, habs] at hw
          exact Option.noConfusion hw
        have hw1' : entryAt fs1 w = some e := by
          rw [hset, entryAt_set_other hwne]
          exact hw
        obtain ⟨c, hsrc, hshape⟩ := shutilCopy_ok_shape h
        rcases hshape with h1 | h1
        · rw [h1, entryAt_set_other (by rw [List.append_assoc] at hw2 ⊢; exact hw2)]
          exact hw1'
        · rw [h1, entryAt_set_other hw1]
          exact hw1'

theorem keys_ext_trans {g0 g1 g2 : FS} {P : FPath → Prop}
    (h1 : ∃ n, fsKeys g1 = fsKeys g0 ++ n ∧ ∀ k ∈ n, P k)
    (h2 : ∃ n, fsKeys g2 = fsKeys g1 ++ n ∧ ∀ k ∈ n, P k) :
    ∃ n, fsKeys g2 = fsKeys g0 ++ n ∧ ∀ k ∈ n, P k := by
  obtain ⟨n1, e1, a1⟩ := h1
  obtain ⟨n2, e2, a2⟩ := h2
  refine ⟨n1 ++ n2, ?_, ?_⟩
  · rw [e2, e1, List.append_assoc]
  · intro k hk
    rcases List.mem_append.mp hk with hk | hk
    · exact a1 k hk
    · exact a2 k hk

theorem fsKeys_setEntry_extP {fs : FS} {p : FPath} (e : Entry)
    {P : FPath → Prop} (hP : P p) :
    ∃ n, fsKeys (setEntry fs p e) = fsKeys fs ++ n ∧ ∀ k ∈ n, P k := by
  obtain ⟨new, hk, hall⟩ := fsKeys_setEntry_ext fs p e
  exact ⟨new, hk, fun k hk1 => (hall k hk1) ▸ hP⟩

theorem keys_ext_refl {g : FS} {P : FPath → Prop} :
    ∃ n, fsKeys g = fsKeys g ++ n ∧ ∀ k ∈ n, P k :=
  ⟨[], by simp, by simp⟩

theorem copyOne_keys {fs fs' : FS} {destination : FPath}
    {item : FPath × FPath} (hr : item.1 ≠ [])
    (h : copyOne fs destination item = Except.ok fs') :
    ∃ new, fsKeys fs' = fsKeys fs ++ new ∧
      ∀ k ∈ new, destination <+: k := by
  have hpfx1 : destination <+: destination ++ item.1 := List.prefix_append _ _
  have hpfx2 : destination <+: (destination ++ item.1) ++ [item.2.getLastD []] := by
    rw [List.append_assoc]
    exact List.prefix_append _ _
  have hpfx3 : destination <+: (destination ++ item.1).dropLast := by
    rw [List.dropLast_append_of_ne_nil destination hr]
    exact List.prefix_append _ _
  unfold copyOne at h
  by_cases hdir : fsIsDir fs item.2 = true
  · rw [if_pos hdir] at h
    by_cases hex : fsExists fs (destination ++ item.1) = true
    · rw [if_pos hex] at h
      injection h with h
      exact h ▸ keys_ext_refl
    · rw [if_neg hex] at h
      obtain ⟨-, -, hset⟩ := mkdirOne_ok_parts h
      exact hset ▸ fsKeys_setEntry_extP Entry.dir hpfx1
  · rw [if_neg hdir] at h
    by_cases hex : fsExists fs (destination ++ item.1).dropLast = true
    · rw [if_pos hex] at h
      obtain ⟨c, hsrc, hshape⟩ := shutilCopy_ok_shape h
      rcases hshape with h1 | h1
      · exact h1 ▸ fsKeys_setEntry_extP (Entry.file c) hpfx2
      · exact h1 ▸ fsKeys_setEntry_extP (Entry.file c) hpfx1
    · rw [if_neg hex] at h
      cases hmk : mkdirOne fs (destination ++ item.1).dropLast with
      | error e0 =>
        rw [hmk] at h
        simp at h
      | ok fs1 =>
        rw [hmk] at h
        obtain ⟨-, -, hset⟩ := mkdirOne_ok_parts hmk
        obtain ⟨c, hsrc, hshape⟩ := shutilCopy_ok_shape h
        refine keys_ext_trans (hset ▸ fsKeys_setEntry_extP Entry.dir hpfx3) ?_
        rcases hshape with h1 | h1
        · exact h1 ▸ fsKeys_setEntry_extP (Entry.file c) hpfx2
        · exact h1 ▸ fsKeys_setEntry_extP (Entry.file c) hpfx1

theorem copyOne_nodup {fs fs' : FS} {destination : FPath}
    {item : FPath × FPath} (h : copyOne fs destination item = Except.ok fs')
    (hnd : keysNodup fs) : keysNodup fs' := by
  unfold copyOne at h
  by_cases hdir : fsIsDir fs item.2 = true
  · rw [if_pos hdir] at h
    by_cases hex : fsExists fs (destination ++ item.1) = true
    · rw [if_pos hex] at h
      injection h with h
      exact h ▸ hnd
    · rw [if_neg hex] at h
      obtain ⟨-, -, hset⟩ := mkdirOne_ok_parts h
      exact hset ▸ keysNodup_setEntry _ _ hnd
  · rw [if_neg hdir] at h
    by_cases hex : fsExists fs (destination ++ item.1).dropLast = true
    · rw [if_pos hex] at h
      obtain ⟨c, hsrc, hshape⟩ := shutilCopy_ok_shape h
      rcases hshape with h1 | h1 <;> exact h1 ▸ keysNodup_setEntry _ _ hnd
    · rw [if_neg hex] at h
      cases hmk : mkdirOne fs (destination ++ item.1).dropLast with
      | error e0 =>
        rw [hmk] at h
        simp at h
      | ok fs1 =>
        rw [hmk] at h
        obtain ⟨-, -, hset⟩ := mkdirOne_ok_parts hmk
        have hnd1 : keysNodup fs1 := hset ▸ keysNodup_setEntry _ _ hnd
        obtain ⟨c, hsrc, hshape⟩ := shutilCopy_ok_shape h
        rcases hshape with h1 | h1 <;> exact h1 ▸ keysNodup_setEntry _ _ hnd1

theorem materialize_ok_cons {destination : FPath} {item : FPath × FPath}
    {items : List (FPath × FPath)} {fs fs' : FS}
    (h : materialize destination (item :: items) fs = Except.ok fs') :
    ∃ fs1, copyOne fs destination item = Except.ok fs1 ∧
      materialize destination items fs1 = Except.ok fs' := by
  unfold materialize at h
  cases hc : copyOne fs destination item with
  | error e =>
    rw [hc] at h
    simp at h
  | ok fs1 =>
    rw [hc] at h
    exact ⟨fs1, rfl, h⟩

theorem materialize_preserves {destination : FPath} :
    ∀ {items : List (FPath × FPath)} {fs fs' : FS},
    materialize destination items fs = Except.ok fs' →
    ∀ w e, entryAt fs w = some e →
      (∀ it ∈ items, w ≠ destination ++ it.1 ∧
        w ≠ destination ++ it.1 ++ [it.2.getLastD []]) →
      entryAt fs' w = some e := by
  intro items
  induction items with
  | nil =>
    intro fs fs' h w e hw _
    unfold materialize at h
    injection h with h
    exact h ▸ hw
  | cons item rest ih =>
    intro fs fs' h w e hw hnot
    obtain ⟨fs1, hc, hm⟩ := materialize_ok_cons h
    have h1 := hnot item (by simp)
    have hw1 : entryAt fs1 w = some e :=
      copyOne_preserves hc w e hw h1.1 h1.2
    exact ih hm w e hw1 (fun it hit => hnot it (by simp [hit]))

theorem materialize_keys {destination : FPath} :
    ∀ {items : List (FPath × FPath)} {fs fs' : FS},
    (∀ it ∈ items, it.1 ≠ []) →
    materialize destination items fs = Except.ok fs' →
    ∃ new, fsKeys fs' = fsKeys fs ++ new ∧
      ∀ k ∈ new, destination <+: k := by
  intro items
  induction items with
  | nil =>
    intro fs fs' _ h
    unfold materialize at h
    injection h with h
    exact h ▸ keys_ext_refl
  | cons item rest ih =>
    intro fs fs' hne h
    obtain ⟨fs1, hc, hm⟩ := materialize_ok_cons h
    exact keys_ext_trans (copyOne_keys (hne item (by simp)) hc)
      (ih (fun it hit => hne it (by simp [hit])) hm)

theorem materialize_nodup {destination : FPath} :
    ∀ {items : List (FPath × FPath)} {fs fs' : FS},
    materialize destination items fs = Except.ok fs' →
    keysNodup fs → keysNodup fs' := by
  intro items
  induction items with
  | nil =>
    intro fs fs' h hnd
    unfold materialize at h
    injection h with h
    exact h ▸ hnd
  | cons item rest ih =>
    intro fs fs' h hnd
    obtain ⟨fs1, hc, hm⟩ := materialize_ok_cons h
    exact ih hm (copyOne_nodup hc hnd)

/-- C9 counterexample: merging a source holding file `a` into a destination
that already holds directory `a` with file `a/a` succeeds, and
`shutil.copy` into the existing directory overwrites the pre-existing file
`a/a` — a destination entry whose relative path `a/a` is not in the merge
table (shown explicitly) — so the merge does modify pre-existing content
outside the final merge table. -/
theorem C9_counterexample :
    overlay_directories c9fs [c9A] c9D [] = Except.ok c9Result ∧
    buildTable c9fs [c9A] [] = [([c9aName], c9A ++ [c9aName])] ∧
    entryAt c9fs (c9D ++ [c9aName, c9aName]) =
      some (Entry.file "old".toList) ∧
    entryAt c9Result (c9D ++ [c9aName, c9aName]) =
      some (Entry.file "x".toList) := by
  decide

/-- C9 (amended): `overlay_directories` never deletes or modifies a
pre-existing entry except at the materialization targets of the final merge
table: `destination ++ rel` for a table key `rel`, and — when `shutil.copy`
finds a pre-existing directory at such a target — the basename target
`destination ++ rel ++ [basename origin]` inside it.  Every pre-existing
entry at any other path is left byte-identical. -/
theorem C9_frame_amended
    (fs fs' : FS) (sources : List FPath) (destination : FPath)
    (ignore : List Motif) (w : FPath) (e : Entry)
    (hok : overlay_directories fs sources destination ignore = Except.ok fs')
    (hw : entryAt fs w = some e)
    (hnot : ∀ it ∈ buildTable fs sources ignore,
      w ≠ destination ++ it.1 ∧
      w ≠ destination ++ it.1 ++ [it.2.getLastD []]) :
    entryAt fs' w = some e := by
  obtain ⟨-, hdest, fs0, hd, hmat⟩ := overlay_ok_parts hok
  obtain ⟨-, hpres, -, -, -⟩ := overlay_fs0_facts hd hdest
  exact materialize_preserves hmat w e (hpres w e hw) hnot

/-- Witness for the amended C9: a source entry outside the write targets is
untouched by the merge. -/
theorem C9_witness :
    entryAt c9Result (c9A ++ [c9aName]) = some (Entry.file "x".toList) :=
  C9_frame_amended c9fs c9Result [c9A] c9D [] (c9A ++ [c9aName])
    (Entry.file "x".toList) (by decide) (by decide) (by decide)

theorem lookupVal_append_single_ne {β : Type} {m : List (FPath × β)}
    {r q : FPath} {v : β} (h : q ≠ r) :
    lookupVal (m ++ [(r, v)]) q = lookupVal m q := by
  rw [lookupVal_append]
  cases hc : lookupVal m q with
  | some v0 => simp
  | none =>
    have hrq : r ≠ q := fun hc2 => h hc2.symm
    simp [lookupVal, hrq]

theorem lookupVal_append_single_self {β : Type} {m : List (FPath × β)}
    {r : FPath} {v : β} (h : r ∉ keysOf m) :
    lookupVal (m ++ [(r, v)]) r = some v := by
  rw [lookupVal_append, lookupVal_of_not_mem h]
  simp [lookupVal]

theorem copyOne_step_inv {fs0 g g' : FS} {destination : FPath}
    {done : List (FPath × FPath)} {r o : FPath}
    (hr : r ≠ []) (hrfresh : r ∉ keysOf done)
    (hpar : r.dropLast = [] ∨ r.dropLast ∈ keysOf done)
    (horig : (entryAt fs0 o).isSome = true)
    (hno : ¬ destination <+: o)
    (hdone : ∀ it ∈ done, (entryAt fs0 it.2).isSome = true)
    (hdonekeys : ∀ it ∈ done, it.1 ≠ [])
    (hinv : MatInv fs0 destination done g)
    (h : copyOne g destination (r, o) = Except.ok g') :
    MatInv fs0 destination (done ++ [(r, o)]) g' := by
  unfold MatInv at hinv
  obtain ⟨hnd, hframe, hdestdir, hsub⟩ := hinv
  simp only [tableLookup] at hsub
  obtain ⟨eo, heo⟩ := Option.isSome_iff_exists.mp horig
  have hgo : entryAt g o = some eo := by
    rw [hframe o hno]
    exact heo
  have hgr : entryAt g (destination ++ r) = none := by
    rw [hsub r hr, lookupVal_of_not_mem hrfresh]
    rfl
  have hdrne : destination ++ r ≠ [] := by
    intro hc
    exact hr (List.append_eq_nil.mp hc).2
  have hddr : destination ≠ destination ++ r := by
    intro hc
    exact hr (append_eq_self_iff.mp hc.symm)
  -- the parent of the copy target exists in `g` as the materialization of
  -- the parent key (or is the destination root)
  have hparfacts : (destination ++ r).dropLast = destination ++ r.dropLast := by
    exact List.dropLast_append_of_ne_nil destination hr
  have hparentexists : ∃ ep, entryAt g ((destination ++ r).dropLast) = some ep ∧
      ((r.dropLast = [] ∧ ep = Entry.dir) ∨
       (∃ opar, lookupVal done r.dropLast = some opar ∧
        entryAt fs0 opar = some ep)) := by
    rcases hpar with hp1 | hp1
    · refine ⟨Entry.dir, ?_, Or.inl ⟨hp1, rfl⟩⟩
      rw [hparfacts, hp1, List.append_nil]
      exact hdestdir
    · have hplne : r.dropLast ≠ [] := by
        obtain ⟨it, hit, hit1⟩ := List.mem_map.mp hp1
        exact hit1 ▸ hdonekeys it hit
      obtain ⟨opar, hopar⟩ :=
        Option.isSome_iff_exists.mp (lookupVal_isSome_of_mem hp1)
      obtain ⟨ep, hep⟩ := Option.isSome_iff_exists.mp (hdone _ (lookupVal_mem hopar))
      refine ⟨ep, ?_, Or.inr ⟨opar, hopar, hep⟩⟩
      rw [hparfacts, hsub r.dropLast hplne, hopar]
      exact hep
  obtain ⟨ep, hgp, hepcases⟩ := hparentexists
  -- in every successful branch the new state is a single store at the key
  have hshape : g' = setEntry g (destination ++ r) eo := by
    simp only [copyOne] at h
    cases heq : eo with
    | dir =>
      have hgdir : fsIsDir g o = true := by
        unfold fsIsDir
        rw [hgo, heq]
      rw [hgdir] at h
      have hnex : fsExists g (destination ++ r) = false := by
        unfold fsExists
        rw [hgr]
        rfl
      rw [hnex] at h
      simp only [Bool.true_eq_false, if_false, if_true] at h
      obtain ⟨-, -, hset⟩ := mkdirOne_ok_parts h
      exact hset
    | file c =>
      have hgndir : fsIsDir g o = false := by
        unfold fsIsDir
        rw [hgo, heq]
      rw [hgndir] at h
      simp only [Bool.false_eq_true, if_false] at h
      have hpex : fsExists g ((destination ++ r).dropLast) = true := by
        unfold fsExists
        rw [hgp]
        rfl
      rw [hpex] at h
      simp only [if_true] at h
      -- h : shutilCopy g o (destination ++ r) = Except.ok g'
      unfold shutilCopy at h
      rw [heq] at hgo
      simp only [hgo] at h
      simp only [hgr] at h
      cases hep2 : ep with
      | dir =>
        rw [hep2] at hgp
        simp only [hgp] at h
        injection h with h
        exact h.symm
      | file c0 =>
        rw [hep2] at hgp
        simp only [hgp] at h
        -- a file stands where the parent directory is needed: the copy fails
        exfalso
        rcases hepcases with ⟨-, hcontra⟩ | ⟨opar, -, -⟩
        · rw [hep2] at hcontra
          exact Entry.noConfusion hcontra
        · exact Except.noConfusion h
  -- re-establish the invariant
  subst hshape
  unfold MatInv
  simp only [tableLookup]
  refine ⟨keysNodup_setEntry _ _ hnd, ?_, ?_, ?_⟩
  · intro w hw
    have hwne : w ≠ destination ++ r := by
      intro hc
      exact hw (hc ▸ List.prefix_append _ _)
    rw [entryAt_set_other hwne]
    exact hframe w hw
  · rw [entryAt_set_other hddr]
    exact hdestdir
  · intro q hq
    by_cases hqr : q = r
    · subst hqr
      rw [entryAt_set_self _ hdrne,
        lookupVal_append_single_self hrfresh]
      exact heo.symm
    · have hne : destination ++ q ≠ destination ++ r := by
        intro hc
        exact hqr (append_cancel_left_eq hc)
      rw [entryAt_set_other hne, lookupVal_append_single_ne hqr]
      exact hsub q hq

theorem mat_invariant {fs0 : FS} {destination : FPath} :
    ∀ {items done : List (FPath × FPath)} {g gF : FS},
    TableGood fs0 destination (keysOf done) items →
    (∀ it ∈ done, (entryAt fs0 it.2).isSome = true) →
    (∀ it ∈ done, it.1 ≠ []) →
    MatInv fs0 destination done g →
    materialize destination items g = Except.ok gF →
    MatInv fs0 destination (done ++ items) gF := by
  intro items
  induction items with
  | nil =>
    intro done g gF _ _ _ hinv h
    unfold materialize at h
    injection h with h
    simpa using h ▸ hinv
  | cons item rest ih =>
    intro done g gF htg hdone hdonekeys hinv h
    obtain ⟨r, o⟩ := item
    unfold TableGood at htg
    obtain ⟨hr, hfresh, hpar, horig, hno, htg'⟩ := htg
    obtain ⟨fs1, hc, hm⟩ := materialize_ok_cons h
    have hinv' := copyOne_step_inv hr hfresh hpar horig hno hdone hdonekeys
      hinv hc
    have hkeys' : keysOf (done ++ [(r, o)]) = keysOf done ++ [r] := by
      simp [keysOf]
    have hdone' : ∀ it ∈ done ++ [(r, o)], (entryAt fs0 it.2).isSome = true := by
      intro it hit
      rcases List.mem_append.mp hit with h1 | h1
      · exact hdone it h1
      · simp at h1
        rw [h1]
        exact horig
    have hdonekeys' : ∀ it ∈ done ++ [(r, o)], it.1 ≠ [] := by
      intro it hit
      rcases List.mem_append.mp hit with h1 | h1
      · exact hdonekeys it h1
      · simp at h1
        rw [h1]
        exact hr
    have htg'' : TableGood fs0 destination (keysOf (done ++ [(r, o)])) rest := by
      rw [hkeys']
      exact htg'
    have hfin := ih htg'' hdone' hdonekeys' hinv' hm
    have heql : (done ++ [(r, o)]) ++ rest = done ++ (r, o) :: rest := by
      simp
    exact heql ▸ hfin

theorem mat_replay {fs0 : FS} {destination : FPath} :
    ∀ {items done : List (FPath × FPath)} {g gF : FS},
    TableGood fs0 destination (keysOf done) items →
    (∀ it ∈ done, (entryAt fs0 it.2).isSome = true) →
    (∀ it ∈ done, it.1 ≠ []) →
    MatInv fs0 destination done g →
    materialize destination items g = Except.ok gF →
    materialize destination items gF = Except.ok gF := by
  intro items
  induction items with
  | nil =>
    intro done g gF _ _ _ _ _
    rfl
  | cons item rest ih =>
    intro done g gF htg hdone hdonekeys hinv h
    obtain ⟨r, o⟩ := item
    have htgc := htg
    unfold TableGood at htgc
    obtain ⟨hr, hfresh, hpar, horig, hno, htg'⟩ := htgc
    obtain ⟨fs1, hc, hm⟩ := materialize_ok_cons h
    have hinv' := copyOne_step_inv hr hfresh hpar horig hno hdone hdonekeys
      hinv hc
    have hinvF := mat_invariant htg hdone hdonekeys hinv h
    unfold MatInv at hinvF
    obtain ⟨hndF, hframeF, hdestF, hsubF⟩ := hinvF
    simp only [tableLookup] at hsubF
    obtain ⟨eo, heo⟩ := Option.isSome_iff_exists.mp horig
    have hlookupF : lookupVal (done ++ (r, o) :: rest) r = some o := by
      rw [lookupVal_append, lookupVal_of_not_mem hfresh]
      simp [lookupVal]
    have hgFr : entryAt gF (destination ++ r) = some eo := by
      rw [hsubF r hr, hlookupF]
      exact heo
    have hgFo : entryAt gF o = some eo := by
      rw [hframeF o hno]
      exact heo
    have hdrne : destination ++ r ≠ [] := by
      intro hceq
      exact hr (List.append_eq_nil.mp hceq).2
    have hparfacts : (destination ++ r).dropLast = destination ++ r.dropLast :=
      List.dropLast_append_of_ne_nil destination hr
    have hparentF : (entryAt gF ((destination ++ r).dropLast)).isSome = true := by
      rcases hpar with hp1 | hp1
      · rw [hparfacts, hp1, List.append_nil, hdestF]
        rfl
      · have hplne : r.dropLast ≠ [] := by
          obtain ⟨it, hit, hit1⟩ := List.mem_map.mp hp1
          exact hit1 ▸ hdonekeys it hit
        obtain ⟨opar, hopar⟩ :=
          Option.isSome_iff_exists.mp (lookupVal_isSome_of_mem hp1)
        have hoparfull : lookupVal (done ++ (r, o) :: rest) r.dropLast =
            some opar := by
          rw [lookupVal_append, hopar]
        obtain ⟨ep, hep⟩ :=
          Option.isSome_iff_exists.mp (hdone _ (lookupVal_mem hopar))
        have hep' : entryAt fs0 opar = some ep := hep
        rw [hparfacts, hsubF r.dropLast hplne, hoparfull]
        simp [hep']
    have hcopyF : copyOne gF destination (r, o) = Except.ok gF := by
      simp only [copyOne]
      cases heq : eo with
      | dir =>
        have hgdir : fsIsDir gF o = true := by
          unfold fsIsDir
          rw [hgFo, heq]
        rw [hgdir]
        have hexq : fsExists gF (destination ++ r) = true := by
          unfold fsExists
          rw [hgFr]
          rfl
        rw [hexq]
        simp
      | file c =>
        have hgndir : fsIsDir gF o = false := by
          unfold fsIsDir
          rw [hgFo, heq]
        rw [hgndir]
        have hpex : fsExists gF ((destination ++ r).dropLast) = true := by
          unfold fsExists
          rw [Bool.eq_iff_iff]
          simp [hparentF]
        rw [hpex]
        simp only [Bool.false_eq_true, if_false, if_true]
        unfold shutilCopy
        rw [heq] at hgFo hgFr
        simp only [hgFo, hgFr]
        rw [setEntry_eq_self hndF hdrne hgFr]
    unfold materialize
    rw [hcopyF]
    have hkeys' : keysOf (done ++ [(r, o)]) = keysOf done ++ [r] := by
      simp [keysOf]
    have hdone' : ∀ it ∈ done ++ [(r, o)], (entryAt fs0 it.2).isSome = true := by
      intro it hit
      rcases List.mem_append.mp hit with h1 | h1
      · exact hdone it h1
      · simp at h1
        rw [h1]
        exact horig
    have hdonekeys' : ∀ it ∈ done ++ [(r, o)], it.1 ≠ [] := by
      intro it hit
      rcases List.mem_append.mp hit with h1 | h1
      · exact hdonekeys it h1
      · simp at h1
        rw [h1]
        exact hr
    have htg'' : TableGood fs0 destination (keysOf (done ++ [(r, o)])) rest := by
      rw [hkeys']
      exact htg'
    exact ih htg'' hdone' hdonekeys' hinv' hm

theorem srcEntries_eq_selPairs (fs : FS) (s : FPath) (ignore : List Motif) :
    srcEntries fs s ignore = selPairs s ignore fs := by
  simp [srcEntries, selPairs, fsGlob, fsKeys, keysOf, List.filter_filter,
    selFn]

theorem selPairs_append (s : FPath) (ignore : List Motif) (l1 l2 : FS) :
    selPairs s ignore (l1 ++ l2) =
      selPairs s ignore l1 ++ selPairs s ignore l2 := by
  simp [selPairs]

theorem selPairs_cons (s : FPath) (ignore : List Motif) (hd : FPath × Entry)
    (tl : FS) :
    selPairs s ignore (hd :: tl) =
      (if selFn s ignore hd.1 = true then [(hd.1.drop s.length, hd.1)]
       else []) ++ selPairs s ignore tl := by
  by_cases hc : selFn s ignore hd.1 = true <;>
    simp [selPairs, hc]

theorem mem_keysOf_selPairs {s k : FPath} {ignore : List Motif} {l : FS} :
    k ∈ keysOf (selPairs s ignore l) ↔
      ∃ p, p ∈ l.map (fun q => q.1) ∧ selFn s ignore p = true ∧
        p.drop s.length = k := by
  simp [selPairs, keysOf, List.map_map, List.mem_map, List.mem_filter]
  constructor
  · rintro ⟨p, ⟨hmem, hsel⟩, hk⟩
    exact ⟨p, hmem, hsel, hk⟩
  · rintro ⟨p, hmem, hsel, hk⟩
    exact ⟨p, ⟨hmem, hsel⟩, hk⟩

theorem selFn_iff {s p : FPath} {ignore : List Motif} :
    selFn s ignore p = true ↔
      should_ignore p ignore = false ∧ s <+: p ∧ p ≠ s := by
  simp [selFn]

theorem wfAuxB_tableGood {fs0 : FS} {destination s : FPath}
    {ignore : List Motif}
    (hd1 : ¬ destination <+: s) (hd2 : ¬ s <+: destination) :
    ∀ {rest pre : FS}, wfAuxB pre rest = true →
    (∀ p, p ∈ fsKeys rest → (entryAt fs0 p).isSome = true) →
    TableGood fs0 destination (keysOf (selPairs s ignore pre))
      (selPairs s ignore rest) := by
  intro rest
  induction rest with
  | nil =>
    intro pre _ _
    show TableGood fs0 destination (keysOf (selPairs s ignore pre)) []
    unfold TableGood
    trivial
  | cons hd tl ih =>
    intro pre hwf horig
    obtain ⟨p, e⟩ := hd
    obtain ⟨hp, hfresh, hpar, hrest⟩ := wfAuxB_cons hwf
    have horig_hd : (entryAt fs0 p).isSome = true := by
      apply horig p
      rw [show fsKeys ((p, e) :: tl) = p :: fsKeys tl from rfl]
      exact List.mem_cons_self _ _
    have horig_tl : ∀ q, q ∈ fsKeys tl → (entryAt fs0 q).isSome = true := by
      intro q hq
      apply horig q
      rw [show fsKeys ((p, e) :: tl) = p :: fsKeys tl from rfl]
      exact List.mem_cons_of_mem _ hq
    rw [selPairs_cons]
    by_cases hsel : selFn s ignore p = true
    · rw [if_pos hsel]
      obtain ⟨hnign, hpfx, hne⟩ := selFn_iff.mp hsel
      have hpeq : s ++ p.drop s.length = p := append_drop_of_pfx hpfx
      have hr1 : p.drop s.length ≠ [] := by
        intro hc
        rw [hc, List.append_nil] at hpeq
        exact hne hpeq.symm
      rw [List.singleton_append]
      unfold TableGood
      refine ⟨hr1, ?_, ?_, horig_hd, ?_, ?_⟩
      · intro hmem
        obtain ⟨p', hp'mem, hp'sel, hp'drop⟩ := mem_keysOf_selPairs.mp hmem
        obtain ⟨-, hp'pfx, -⟩ := selFn_iff.mp hp'sel
        have hp'eq : s ++ p'.drop s.length = p' := append_drop_of_pfx hp'pfx
        have : p' = p := by
          rw [← hp'eq, hp'drop, hpeq]
        obtain ⟨q, hq, hq1⟩ := List.mem_map.mp hp'mem
        exact hfresh q hq (hq1.trans this)
      · by_cases hrd : (p.drop s.length).dropLast = []
        · exact Or.inl hrd
        · right
          have hpd : p.dropLast = s ++ (p.drop s.length).dropLast := by
            conv_lhs => rw [← hpeq]
            exact List.dropLast_append_of_ne_nil s hr1
          have hpdne : p.dropLast ≠ [] := by
            rw [hpd]
            intro hc
            exact hrd (List.append_eq_nil.mp hc).2
          have hmempre : (p.dropLast, Entry.dir) ∈ pre := by
            rcases hpar with h1 | h1
            · exact absurd h1 hpdne
            · exact h1
          have hplast : p.dropLast ++ [p.getLast hp] = p :=
            List.dropLast_append_getLast hp
          have hnignp : should_ignore p.dropLast ignore = false := by
            apply should_ignore_false_parent (q := [p.getLast hp])
            rw [hplast]
            exact hnign
          apply mem_keysOf_selPairs.mpr
          refine ⟨p.dropLast, List.mem_map.mpr ⟨(p.dropLast, Entry.dir),
            hmempre, rfl⟩, ?_, ?_⟩
          · apply selFn_iff.mpr
            refine ⟨hnignp, ?_, ?_⟩
            · rw [hpd]
              exact List.prefix_append _ _
            · rw [hpd]
              intro hc
              exact hrd (append_eq_self_iff.mp hc)
          · rw [hpd, List.drop_left]
      · intro hc
        rcases pfx_comparable hc hpfx with h1 | h1
        · exact hd1 h1
        · exact hd2 h1
      · have hk : keysOf (selPairs s ignore (pre ++ [(p, e)])) =
            keysOf (selPairs s ignore pre) ++ [p.drop s.length] := by
          rw [selPairs_append, keysOf_append, selPairs_cons, if_pos hsel]
          rfl
        have := @ih (pre ++ [(p, e)]) hrest horig_tl
        rw [hk] at this
        exact this
    · rw [if_neg hsel, List.nil_append]
      have hk : keysOf (selPairs s ignore (pre ++ [(p, e)])) =
          keysOf (selPairs s ignore pre) := by
        rw [selPairs_append, keysOf_append, selPairs_cons, if_neg hsel]
        simp [selPairs, keysOf]
      have := @ih (pre ++ [(p, e)]) hrest horig_tl
      rw [hk] at this
      exact this

theorem srcEntries_tableGood {fs fs0 : FS} {destination s : FPath}
    {ignore : List Motif}
    (hd1 : ¬ destination <+: s) (hd2 : ¬ s <+: destination)
    (hwf : wfB fs = true)
    (horig : ∀ p, p ∈ fsKeys fs → (entryAt fs0 p).isSome = true) :
    TableGood fs0 destination [] (srcEntries fs s ignore) := by
  rw [srcEntries_eq_selPairs]
  have := @wfAuxB_tableGood fs0 destination s ignore hd1 hd2 fs [] hwf horig
  simpa [selPairs, keysOf] using this

theorem TableGood_append_single {fs0 : FS} {destination : FPath}
    {r o : FPath} :
    ∀ {m : List (FPath × FPath)} {seen : List FPath},
    TableGood fs0 destination seen m →
    r ≠ [] → r ∉ seen ++ keysOf m →
    (r.dropLast = [] ∨ r.dropLast ∈ seen ++ keysOf m) →
    (entryAt fs0 o).isSome = true → ¬ destination <+: o →
    TableGood fs0 destination seen (m ++ [(r, o)]) := by
  intro m
  induction m with
  | nil =>
    intro seen _ hr hfresh hpar ho1 ho2
    rw [List.nil_append]
    unfold TableGood
    rw [keysOf_nil, List.append_nil] at hfresh hpar
    exact ⟨hr, hfresh, hpar, ho1, ho2, trivial⟩
  | cons hd tlm ih =>
    intro seen h hr hfresh hpar ho1 ho2
    obtain ⟨r0, o0⟩ := hd
    unfold TableGood at h
    obtain ⟨hr0, hfresh0, hpar0, ho10, ho20, hrest⟩ := h
    rw [List.cons_append]
    unfold TableGood
    have hperm : (seen ++ [r0]) ++ keysOf tlm = seen ++ keysOf ((r0, o0) :: tlm) := by
      rw [keysOf_cons]
      simp
    refine ⟨hr0, hfresh0, hpar0, ho10, ho20, ?_⟩
    apply ih hrest hr
    · rw [hperm]
      exact hfresh
    · rw [hperm]
      exact hpar
    · exact ho1
    · exact ho2

theorem TableGood_map_replace {fs0 : FS} {destination : FPath} {k o' : FPath}
    (ho1 : (entryAt fs0 o').isSome = true) (ho2 : ¬ destination <+: o') :
    ∀ {m : List (FPath × FPath)} {seen : List FPath},
    TableGood fs0 destination seen m →
    TableGood fs0 destination seen (m.map (replaceVal k o')) := by
  intro m
  induction m with
  | nil => intro seen h; exact h
  | cons hd tlm ih =>
    intro seen h
    obtain ⟨r, o⟩ := hd
    unfold TableGood at h
    obtain ⟨hr, hfresh, hpar, horig, hno, hrest⟩ := h
    rw [List.map_cons]
    by_cases hk : r = k
    · subst hk
      rw [replaceVal_pair_self]
      unfold TableGood
      exact ⟨hr, hfresh, hpar, ho1, ho2, ih hrest⟩
    · rw [replaceVal_pair_other o' o hk]
      unfold TableGood
      exact ⟨hr, hfresh, hpar, horig, hno, ih hrest⟩

theorem TableGood_nodup_keys {fs0 : FS} {destination : FPath} :
    ∀ {m : List (FPath × FPath)} {seen : List FPath},
    TableGood fs0 destination seen m →
    (keysOf m).Nodup ∧ ∀ k ∈ keysOf m, k ∉ seen := by
  intro m
  induction m with
  | nil =>
    intro seen _
    exact ⟨List.nodup_nil, by simp [keysOf]⟩
  | cons hd tlm ih =>
    intro seen h
    obtain ⟨r, o⟩ := hd
    unfold TableGood at h
    obtain ⟨hr, hfresh, hpar, horig, hno, hrest⟩ := h
    obtain ⟨hnd, hnot⟩ := ih hrest
    rw [keysOf_cons]
    constructor
    · apply List.nodup_cons.mpr
      refine ⟨?_, hnd⟩
      intro hc
      have := hnot r hc
      simp at this
    · intro k hk
      rcases List.mem_cons.mp hk with h1 | h1
      · exact h1 ▸ hfresh
      · intro hc
        have := hnot k h1
        simp [hc] at this

theorem TableGood_mem {fs0 : FS} {destination : FPath} :
    ∀ {m : List (FPath × FPath)} {seen : List FPath},
    TableGood fs0 destination seen m →
    ∀ it ∈ m, it.1 ≠ [] ∧ (entryAt fs0 it.2).isSome = true ∧
      ¬ destination <+: it.2 := by
  intro m
  induction m with
  | nil =>
    intro seen _ it hit
    simp at hit
  | cons hd tlm ih =>
    intro seen h it hit
    obtain ⟨r, o⟩ := hd
    unfold TableGood at h
    obtain ⟨hr, hfresh, hpar, horig, hno, hrest⟩ := h
    rcases List.mem_cons.mp hit with h1 | h1
    · subst h1
      exact ⟨hr, horig, hno⟩
    · exact ih hrest it h1

theorem odInsert_good {fs0 : FS} {destination : FPath}
    {acc : List (FPath × FPath)} {r o : FPath}
    (hacc : TableGood fs0 destination [] acc)
    (hr : r ≠ []) (hpar : r.dropLast = [] ∨ r.dropLast ∈ keysOf acc)
    (ho1 : (entryAt fs0 o).isSome = true) (ho2 : ¬ destination <+: o) :
    TableGood fs0 destination [] (odInsert acc (r, o)) ∧
    ∀ k, (k ∈ keysOf acc ∨ k = r) → k ∈ keysOf (odInsert acc (r, o)) := by
  unfold odInsert setVal
  by_cases hmem : acc.any (fun it => decide (it.1 = r)) = true
  · rw [if_pos hmem]
    constructor
    · exact TableGood_map_replace ho1 ho2 hacc
    · intro k hk
      have hkeys : keysOf (acc.map (replaceVal r o)) = keysOf acc := by
        simp only [keysOf, List.map_map]
        apply List.map_congr_left
        intro it _
        exact replaceVal_key r o it
      rw [hkeys]
      rcases hk with h1 | h1
      · exact h1
      · exact h1 ▸ any_key_iff.mp hmem
  · rw [if_neg hmem]
    have hfresh : r ∉ keysOf acc := fun hc => hmem (any_key_iff.mpr hc)
    constructor
    · apply TableGood_append_single hacc hr
      · simpa using hfresh
      · simpa using hpar
      · exact ho1
      · exact ho2
    · intro k hk
      rw [keysOf_append]
      rcases hk with h1 | h1
      · exact List.mem_append.mpr (Or.inl h1)
      · apply List.mem_append.mpr
        right
        rw [h1]
        exact List.mem_singleton.mpr rfl

theorem odUpdate_good {fs0 : FS} {destination : FPath} :
    ∀ {entries acc : List (FPath × FPath)} {seenE : List FPath},
    TableGood fs0 destination seenE entries →
    (∀ k ∈ seenE, k ∈ keysOf acc) →
    TableGood fs0 destination [] acc →
    TableGood fs0 destination [] (odUpdate acc entries) ∧
    ∀ k, (k ∈ keysOf acc ∨ k ∈ keysOf entries) →
      k ∈ keysOf (odUpdate acc entries) := by
  intro entries
  induction entries with
  | nil =>
    intro acc seenE _ _ hacc
    refine ⟨hacc, ?_⟩
    intro k hk
    rcases hk with h1 | h1
    · exact h1
    · rw [keysOf_nil] at h1
      simp at h1
  | cons hd rest ih =>
    intro acc seenE htg hseen hacc
    obtain ⟨r, o⟩ := hd
    unfold TableGood at htg
    obtain ⟨hr, -, hpar, ho1, ho2, hrest⟩ := htg
    have hpar' : r.dropLast = [] ∨ r.dropLast ∈ keysOf acc := by
      rcases hpar with h1 | h1
      · exact Or.inl h1
      · exact Or.inr (hseen _ h1)
    obtain ⟨hacc1, hmem1⟩ := odInsert_good hacc hr hpar' ho1 ho2
    have hseen' : ∀ k ∈ seenE ++ [r], k ∈ keysOf (odInsert acc (r, o)) := by
      intro k hk
      rcases List.mem_append.mp hk with h1 | h1
      · exact hmem1 k (Or.inl (hseen k h1))
      · simp at h1
        exact hmem1 k (Or.inr h1)
    obtain ⟨hfin, hmemfin⟩ := ih hrest hseen' hacc1
    have hfold : odUpdate acc ((r, o) :: rest) =
        odUpdate (odInsert acc (r, o)) rest := rfl
    rw [hfold]
    refine ⟨hfin, ?_⟩
    intro k hk
    rcases hk with h1 | h1
    · exact hmemfin k (Or.inl (hmem1 k (Or.inl h1)))
    · rw [keysOf_cons] at h1
      rcases List.mem_cons.mp h1 with h2 | h2
      · exact hmemfin k (Or.inl (hmem1 k (Or.inr h2)))
      · exact hmemfin k (Or.inr h2)

theorem buildTable_good {fs fs0 : FS} {destination : FPath}
    {sources : List FPath} {ignore : List Motif}
    (hwf : wfB fs = true)
    (hdisj : disjointFrom destination sources)
    (horig : ∀ p, p ∈ fsKeys fs → (entryAt fs0 p).isSome = true) :
    TableGood fs0 destination [] (buildTable fs sources ignore) := by
  unfold buildTable
  suffices h : ∀ (srcs : List FPath),
      (∀ s ∈ srcs, ¬ destination <+: s ∧ ¬ s <+: destination) →
      ∀ acc, TableGood fs0 destination [] acc →
      TableGood fs0 destination []
        (srcs.foldl (fun acc s => odUpdate acc (srcEntries fs s ignore)) acc) by
    apply h sources hdisj []
    unfold TableGood
    trivial
  intro srcs
  induction srcs with
  | nil =>
    intro _ acc hacc
    exact hacc
  | cons s srcs' ih =>
    intro hdis acc hacc
    have hs := hdis s (by simp)
    have hgood := @srcEntries_tableGood fs fs0 destination s ignore
      hs.1 hs.2 hwf horig
    have hstep := odUpdate_good hgood (by simp) hacc
    exact ih (fun s' hs' => hdis s' (by simp [hs'])) _ hstep.1

theorem mem_selPairs_pair {s a b : FPath} {ignore : List Motif} {l : FS} :
    (a, b) ∈ selPairs s ignore l ↔
      b ∈ l.map (fun q => q.1) ∧ selFn s ignore b = true ∧
        a = b.drop s.length := by
  simp only [selPairs, List.mem_map, List.mem_filter, Prod.mk.injEq]
  constructor
  · rintro ⟨p, ⟨hmem, hsel⟩, ha, hb⟩
    subst hb
    exact ⟨hmem, hsel, ha.symm⟩
  · rintro ⟨hmem, hsel, ha⟩
    exact ⟨b, ⟨hmem, hsel⟩, ha.symm, rfl⟩

theorem srcEntries_mem_unpack {fs : FS} {s r o : FPath} {ignore : List Motif}
    (h : (r, o) ∈ srcEntries fs s ignore) :
    o ∈ fsKeys fs ∧ s <+: o ∧ o ≠ s ∧ should_ignore o ignore = false ∧
      r = o.drop s.length := by
  rw [srcEntries_eq_selPairs] at h
  obtain ⟨hmem, hsel, hr⟩ := mem_selPairs_pair.mp h
  obtain ⟨hnign, hpfx, hne⟩ := selFn_iff.mp hsel
  exact ⟨hmem, hpfx, hne, hnign, hr⟩

theorem srcEntries_mem_intro {fs : FS} {s p : FPath} {ignore : List Motif}
    {e : Entry} (hp : p ≠ []) (hent : entryAt fs (s ++ p) = some e)
    (hnign : should_ignore (s ++ p) ignore = false) :
    (p, s ++ p) ∈ srcEntries fs s ignore := by
  rw [srcEntries_eq_selPairs]
  apply mem_selPairs_pair.mpr
  have hne : s ++ p ≠ [] := by simp [hp]
  refine ⟨?_, ?_, ?_⟩
  · exact List.mem_map.mpr ⟨(s ++ p, e), entryAt_mem hne hent, rfl⟩
  · apply selFn_iff.mpr
    refine ⟨hnign, List.prefix_append _ _, ?_⟩
    intro hc
    exact hp (append_eq_self_iff.mp hc)
  · rw [List.drop_left]

theorem odInsert_mem {m : List (FPath × FPath)} {kv x : FPath × FPath}
    (h : x ∈ odInsert m kv) : x ∈ m ∨ x = kv := by
  unfold odInsert setVal at h
  by_cases hmem : m.any (fun it => decide (it.1 = kv.1)) = true
  · rw [if_pos hmem] at h
    obtain ⟨y, hy, hyx⟩ := List.mem_map.mp h
    unfold replaceVal at hyx
    by_cases hyk : y.1 = kv.1
    · rw [if_pos hyk] at hyx
      right
      rw [← hyx]
    · rw [if_neg hyk] at hyx
      exact Or.inl (hyx ▸ hy)
  · rw [if_neg hmem] at h
    rcases List.mem_append.mp h with h1 | h1
    · exact Or.inl h1
    · right
      simpa using h1

theorem odUpdate_mem :
    ∀ {entries m : List (FPath × FPath)} {x : FPath × FPath},
    x ∈ odUpdate m entries → x ∈ m ∨ x ∈ entries := by
  intro entries
  induction entries with
  | nil =>
    intro m x h
    exact Or.inl h
  | cons kv rest ih =>
    intro m x h
    have hfold : odUpdate m (kv :: rest) = odUpdate (odInsert m kv) rest := rfl
    rw [hfold] at h
    rcases ih h with h1 | h1
    · rcases odInsert_mem h1 with h2 | h2
      · exact Or.inl h2
      · exact Or.inr (h2 ▸ List.mem_cons_self _ _)
    · exact Or.inr (List.mem_cons_of_mem _ h1)

theorem buildTable_mem {fs : FS} {sources : List FPath} {ignore : List Motif}
    {x : FPath × FPath} (h : x ∈ buildTable fs sources ignore) :
    ∃ s ∈ sources, x ∈ srcEntries fs s ignore := by
  unfold buildTable at h
  suffices hsuf : ∀ (srcs : List FPath) (acc : List (FPath × FPath)),
      x ∈ srcs.foldl (fun acc s => odUpdate acc (srcEntries fs s ignore)) acc →
      x ∈ acc ∨ ∃ s ∈ srcs, x ∈ srcEntries fs s ignore by
    rcases hsuf sources [] h with h1 | h1
    · simp at h1
    · exact h1
  intro srcs
  induction srcs with
  | nil =>
    intro acc h1
    exact Or.inl h1
  | cons s srcs' ih =>
    intro acc h1
    rcases ih _ h1 with h2 | h2
    · rcases odUpdate_mem h2 with h3 | h3
      · exact Or.inl h3
      · exact Or.inr ⟨s, by simp, h3⟩
    · obtain ⟨s', hs', hx⟩ := h2
      exact Or.inr ⟨s', by simp [hs'], hx⟩

theorem odUpdate_lookup_not_mem :
    ∀ {entries m : List (FPath × FPath)} {q : FPath},
    q ∉ keysOf entries →
    lookupVal (odUpdate m entries) q = lookupVal m q := by
  intro entries
  induction entries with
  | nil =>
    intro m q _
    rfl
  | cons kv rest ih =>
    intro m q hq
    rw [keysOf_cons] at hq
    simp only [List.mem_cons, not_or] at hq
    have hfold : odUpdate m (kv :: rest) = odUpdate (odInsert m kv) rest := rfl
    rw [hfold, ih hq.2]
    exact lookupVal_set_other hq.1

theorem odUpdate_lookup_mem :
    ∀ {entries m : List (FPath × FPath)} {q o : FPath},
    (keysOf entries).Nodup → (q, o) ∈ entries →
    lookupVal (odUpdate m entries) q = some o := by
  intro entries
  induction entries with
  | nil =>
    intro m q o _ h
    simp at h
  | cons kv rest ih =>
    intro m q o hnd h
    rw [keysOf_cons] at hnd
    have hfold : odUpdate m (kv :: rest) = odUpdate (odInsert m kv) rest := rfl
    rw [hfold]
    rcases List.mem_cons.mp h with h1 | h1
    · subst h1
      rw [odUpdate_lookup_not_mem (List.nodup_cons.mp hnd).1]
      exact lookupVal_set_self _ _ _
    · exact ih (List.nodup_cons.mp hnd).2 h1

theorem cleanDest_of_keys {fs : FS} {destination : FPath}
    (h : ∀ k ∈ fsKeys fs, ¬ (destination <+: k ∧ k ≠ destination)) :
    cleanDest fs destination := by
  intro q hq
  cases hc : entryAt fs (destination ++ q) with
  | none => rfl
  | some e =>
    exfalso
    have hne : destination ++ q ≠ [] := by simp [hq]
    have hmem : destination ++ q ∈ fsKeys fs :=
      List.mem_map.mpr ⟨(destination ++ q, e), entryAt_mem hne hc, rfl⟩
    apply h _ hmem
    refine ⟨List.prefix_append _ _, ?_⟩
    intro hceq
    exact hq (append_eq_self_iff.mp hceq)

theorem overlay_invariant_final {fs fs' : FS} {sources : List FPath}
    {destination : FPath} {ignore : List Motif}
    (hwf : wfB fs = true) (hdisj : disjointFrom destination sources)
    (hclean : cleanDest fs destination)
    (hok : overlay_directories fs sources destination ignore = Except.ok fs') :
    ∃ fs0,
      MatInv fs0 destination (buildTable fs sources ignore) fs' ∧
      (∀ w, ¬ w <+: destination → entryAt fs0 w = entryAt fs w) ∧
      TableGood fs0 destination [] (buildTable fs sources ignore) ∧
      (if fsExists fs destination then Except.ok fs
       else mkdirParents fs destination) = Except.ok fs0 ∧
      materialize destination (buildTable fs sources ignore) fs0 =
        Except.ok fs' ∧
      sources.filter (fun p => !(fsIsDir fs p)) = [] ∧
      MatInv fs0 destination [] fs0 := by
  obtain ⟨hsrcok, hdest, fs0, hd, hmat⟩ := overlay_ok_parts hok
  obtain ⟨hdestdir, hpres, hframe0, hkeys0, hnd0f⟩ := overlay_fs0_facts hd hdest
  have horig0 : ∀ p, p ∈ fsKeys fs → (entryAt fs0 p).isSome = true := by
    intro p hp
    obtain ⟨e, he⟩ :=
      Option.isSome_iff_exists.mp (entryAt_isSome_of_mem_keys hp)
    rw [hpres p e he]
    rfl
  have hframe0' : ∀ w, ¬ w <+: destination → entryAt fs0 w = entryAt fs w :=
    hframe0
  have htable := @buildTable_good fs fs0 destination sources ignore hwf hdisj
    horig0
  have hinv0 : MatInv fs0 destination [] fs0 := by
    unfold MatInv
    refine ⟨hnd0f (wf_nodup hwf), fun w _ => rfl, hdestdir, ?_⟩
    intro q hq
    have h1 : ¬ (destination ++ q) <+: destination := by
      intro hc
      have := hc.length_le
      rw [List.length_append] at this
      have hql : 0 < q.length := List.length_pos.mpr hq
      omega
    rw [hframe0 _ h1]
    have hclean' := hclean q hq
    rw [hclean']
    rfl
  have hfin := @mat_invariant fs0 destination (buildTable fs sources ignore)
    [] fs0 fs' htable (by simp) (by simp) hinv0 hmat
  refine ⟨fs0, by simpa using hfin, hframe0', htable, hd, hmat, hsrcok, hinv0⟩

theorem overlay_entry_eq {fs fs' : FS} {sources : List FPath}
    {destination : FPath} {ignore : List Motif}
    (hwf : wfB fs = true) (hdisj : disjointFrom destination sources)
    (hclean : cleanDest fs destination)
    (hok : overlay_directories fs sources destination ignore = Except.ok fs') :
    ∀ q, q ≠ [] →
      entryAt fs' (destination ++ q) =
        (tableLookup (buildTable fs sources ignore) q).bind (entryAt fs) := by
  obtain ⟨fs0, hinv, hframe0, htable, -, -, -, -⟩ :=
    overlay_invariant_final hwf hdisj hclean hok
  intro q hq
  unfold MatInv at hinv
  obtain ⟨-, -, -, hsub⟩ := hinv
  rw [hsub q hq]
  cases hlk : tableLookup (buildTable fs sources ignore) q with
  | none => rfl
  | some o =>
    have hmem : (q, o) ∈ buildTable fs sources ignore := by
      unfold tableLookup at hlk
      exact lookupVal_mem hlk
    obtain ⟨s, hs, hsrc⟩ := buildTable_mem hmem
    obtain ⟨-, hpfx, -, -, -⟩ := srcEntries_mem_unpack hsrc
    have hno : ¬ o <+: destination := by
      intro hc
      exact (hdisj s hs).2 (hpfx.trans hc)
    simp only [Option.some_bind]
    exact hframe0 o hno

/-- C1: when sources A and B both define the same relative path `p` (B's
entry a file, not excluded), the content materialized at `destination/p` by
a successful merge onto a clean destination is B's content — the last
source in the list wins, regardless of what A stores at `p`. -/
theorem C1_last_source_wins
    (fs fs' : FS) (A B D p : FPath) (ignore : List Motif) (ea : Entry)
    (cb : List Char)
    (hwf : wfB fs = true) (hdisj : disjointFrom D [A, B])
    (hclean : cleanDest fs D) (hp : p ≠ [])
    (hA : entryAt fs (A ++ p) = some ea)
    (hB : entryAt fs (B ++ p) = some (Entry.file cb))
    (hnign : should_ignore (B ++ p) ignore = false)
    (hok : overlay_directories fs [A, B] D ignore = Except.ok fs') :
    entryAt fs' (D ++ p) = some (Entry.file cb) := by
  rw [overlay_entry_eq hwf hdisj hclean hok p hp]
  have hmem : (p, B ++ p) ∈ srcEntries fs B ignore :=
    srcEntries_mem_intro hp hB hnign
  have hdB := hdisj B (by simp)
  have hnodB : (keysOf (srcEntries fs B ignore)).Nodup :=
    (TableGood_nodup_keys (@srcEntries_tableGood fs fs D B ignore
      hdB.1 hdB.2 hwf (fun p2 hp2 => entryAt_isSome_of_mem_keys hp2))).1
  have htbl : buildTable fs [A, B] ignore =
      odUpdate (odUpdate [] (srcEntries fs A ignore))
        (srcEntries fs B ignore) := rfl
  have hlk : tableLookup (buildTable fs [A, B] ignore) p = some (B ++ p) := by
    unfold tableLookup
    rw [htbl]
    exact odUpdate_lookup_mem hnodB hmem
  rw [hlk, Option.some_bind]
  exact hB

/-- Witness for C1 on the spec's own end-to-end example: the later source
wins at the shared relative path. -/
theorem C1_witness :
    entryAt c1Result (c1D ++ c1P) = some (Entry.file "2".toList) :=
  C1_last_source_wins c1fs c1Result c1A c1B c1D c1P []
    (Entry.file "1".toList) ("2".toList) (by decide)
    (by unfold disjointFrom; decide)
    (cleanDest_of_keys (by decide)) (by decide) (by decide) (by decide)
    (by decide) (by decide)

theorem pfx_append_left {s a b : FPath} (h : a <+: b) : s ++ a <+: s ++ b := by
  obtain ⟨t, rfl⟩ := h
  rw [← List.append_assoc]
  exact List.prefix_append _ _

/-- C2 counterexample: entry `foosrc/x` of the first source matches the
motif `foo` and is excluded, yet after the merge the destination does hold
an entry at that excluded entry's relative path `x`, materialized by
`overlay_directories` itself from the second source — the excluded subtree
is not absent from the destination. -/
theorem C2_counterexample :
    should_ignore (c2A ++ [c2X]) [c2Motif] = true ∧
    entryAt c2fs (c2A ++ [c2X]) = some (Entry.file "ax".toList) ∧
    overlay_directories c2fs [c2A, c2B] c2D [c2Motif] = Except.ok c2Result ∧
    entryAt c2Result (c2D ++ [c2X]) = some (Entry.file "bx".toList) := by
  decide

/-- C2 (amended): for an exclusion motif `m` and an entry `e` of source `s`
whose full path contains `m`, nothing from `e`'s subtree is ever used as a
copy origin by the merge; and a path in the excluded subtree is absent from
the (initially clean) destination provided no other source contributes a
surviving entry at the same relative path. -/
theorem C2_exclusion_amended
    (fs fs' : FS) (sources : List FPath) (destination : FPath)
    (ignore : List Motif) (s e : FPath) (m : Motif) (ee : Entry)
    (hwf : wfB fs = true) (hdisj : disjointFrom destination sources)
    (hclean : cleanDest fs destination)
    (hs : s ∈ sources) (hm : m ∈ ignore)
    (hse : s <+: e) (hene : e ≠ s)
    (hent : entryAt fs e = some ee)
    (hinf : m <:+: pathChars e)
    (hok : overlay_directories fs sources destination ignore = Except.ok fs') :
    (∀ it ∈ buildTable fs sources ignore, ¬ e <+: it.2) ∧
    (∀ q : FPath, e.drop s.length <+: q →
      (∀ s' ∈ sources, s' ≠ s →
        should_ignore (s' ++ q) ignore = true ∨
          entryAt fs (s' ++ q) = none) →
      entryAt fs' (destination ++ q) = none) := by
  have hexcl : should_ignore e ignore = true := by
    unfold should_ignore
    apply List.any_eq_true.mpr
    exact ⟨m, hm, decide_eq_true hinf⟩
  have hmono : ∀ w, e <+: w → should_ignore w ignore = true := by
    intro w hw
    obtain ⟨t, rfl⟩ := hw
    exact should_ignore_mono hexcl
  have heeq : s ++ e.drop s.length = e := append_drop_of_pfx hse
  have hrelne : e.drop s.length ≠ [] := by
    intro hc
    rw [hc, List.append_nil] at heeq
    exact hene heeq.symm
  constructor
  · intro it hit hpe
    obtain ⟨s2, hs2, hsrc⟩ := buildTable_mem hit
    obtain ⟨-, -, -, hnign, -⟩ :=
      srcEntries_mem_unpack (s := s2) (r := it.1) (o := it.2) hsrc
    rw [hmono it.2 hpe] at hnign
    exact Bool.noConfusion hnign
  · intro q hrelq hothers
    have hq : q ≠ [] := by
      intro hc
      rw [hc] at hrelq
      exact hrelne (List.prefix_nil.mp hrelq)
    rw [overlay_entry_eq hwf hdisj hclean hok q hq]
    cases hlk : tableLookup (buildTable fs sources ignore) q with
    | none => rfl
    | some o =>
      exfalso
      have hmem : (q, o) ∈ buildTable fs sources ignore := by
        unfold tableLookup at hlk
        exact lookupVal_mem hlk
      obtain ⟨s', hs', hsrc⟩ := buildTable_mem hmem
      obtain ⟨hokeys, hpfx, -, hnign, hdrop⟩ := srcEntries_mem_unpack hsrc
      have hoeq : o = s' ++ q := by
        have := append_drop_of_pfx hpfx
        rw [← hdrop] at this
        exact this.symm
      by_cases hss : s' = s
      · subst hss
        have hpe : e <+: o := by
          rw [hoeq, ← heeq]
          exact pfx_append_left hrelq
        rw [hmono o hpe] at hnign
        exact Bool.noConfusion hnign
      · rcases hothers s' hs' hss with h1 | h1
        · rw [hoeq, h1] at hnign
          exact Bool.noConfusion hnign
        · have := entryAt_isSome_of_mem_keys hokeys
          rw [hoeq, h1] at this
          exact Bool.noConfusion this

/-- Witness for the amended C2: a path strictly inside the excluded subtree
that no other source supplies is absent from the destination. -/
theorem C2_witness :
    entryAt c2Result (c2D ++ [c2X, c2X]) = none :=
  (C2_exclusion_amended c2fs c2Result [c2A, c2B] c2D [c2Motif] c2A
    (c2A ++ [c2X]) c2Motif (Entry.file "ax".toList) (by decide)
    (by unfold disjointFrom; decide) (cleanDest_of_keys (by decide))
    (by decide) (by decide) (by decide) (by decide) (by decide) (by decide)
    (by decide)).2 [c2X, c2X] (by decide) (by decide)

theorem fsGlob_eq_of_keys {fs fs1 : FS} {s : FPath} {new : List FPath}
    (hkeys : fsKeys fs1 = fsKeys fs ++ new)
    (hnew : ∀ k ∈ new, ¬ s <+: k) :
    fsGlob fs1 s = fsGlob fs s := by
  unfold fsGlob
  rw [hkeys, List.filter_append]
  have hnil : new.filter (fun p => decide (s <+: p) && decide (p ≠ s)) = [] := by
    apply List.filter_eq_nil_iff.mpr
    intro k hk
    simp [hnew k hk]
  rw [hnil, List.append_nil]

theorem srcEntries_eq_of_keys {fs fs1 : FS} {s : FPath} {ignore : List Motif}
    {new : List FPath} (hkeys : fsKeys fs1 = fsKeys fs ++ new)
    (hnew : ∀ k ∈ new, ¬ s <+: k) :
    srcEntries fs1 s ignore = srcEntries fs s ignore := by
  unfold srcEntries
  rw [fsGlob_eq_of_keys hkeys hnew]

theorem buildTable_congr {fs fs1 : FS} {sources : List FPath}
    {ignore : List Motif}
    (h : ∀ s ∈ sources, srcEntries fs1 s ignore = srcEntries fs s ignore) :
    buildTable fs1 sources ignore = buildTable fs sources ignore := by
  unfold buildTable
  suffices hsuf : ∀ (srcs : List FPath),
      (∀ s ∈ srcs, srcEntries fs1 s ignore = srcEntries fs s ignore) →
      ∀ acc,
      srcs.foldl (fun acc s => odUpdate acc (srcEntries fs1 s ignore)) acc =
      srcs.foldl (fun acc s => odUpdate acc (srcEntries fs s ignore)) acc by
    exact hsuf sources h []
  intro srcs
  induction srcs with
  | nil =>
    intro _ acc
    rfl
  | cons s srcs' ih =>
    intro hall acc
    have hs := hall s (by simp)
    show (srcs'.foldl (fun acc s => odUpdate acc (srcEntries fs1 s ignore))
      (odUpdate acc (srcEntries fs1 s ignore))) = _
    rw [hs]
    exact ih (fun s' hs' => hall s' (by simp [hs'])) _

/-- C5: merging is idempotent — running the same successful merge a second
time against the already-merged result succeeds and leaves the whole
filesystem (in particular the destination tree) byte-identical. -/
theorem C5_merge_idempotent
    (fs fs1 : FS) (sources : List FPath) (destination : FPath)
    (ignore : List Motif)
    (hwf : wfB fs = true) (hdisj : disjointFrom destination sources)
    (hclean : cleanDest fs destination)
    (hok : overlay_directories fs sources destination ignore = Except.ok fs1) :
    overlay_directories fs1 sources destination ignore = Except.ok fs1 := by
  obtain ⟨hsrcok0, hdest0, fs0', hd', hmat'⟩ := overlay_ok_parts hok
  obtain ⟨fs0, hinv, hframe0, htable, hd, hmat, hsrcok, hinv0⟩ :=
    overlay_invariant_final hwf hdisj hclean hok
  have hinvc := hinv
  unfold MatInv at hinvc
  obtain ⟨hnd1, hframe1, hdest1, hsub1⟩ := hinvc
  -- sources are still directories afterwards
  have hsrcdirs : ∀ s ∈ sources, fsIsDir fs s = true := by
    intro s hs
    have := List.filter_eq_nil_iff.mp hsrcok s hs
    simpa using this
  have hentry_pres : ∀ s ∈ sources, entryAt fs1 s = entryAt fs s := by
    intro s hs
    rw [hframe1 s (fun hc => (hdisj s hs).1 hc)]
    exact hframe0 s (fun hc => (hdisj s hs).2 hc)
  have hsrcok1 : sources.filter (fun p => !(fsIsDir fs1 p)) = [] := by
    apply List.filter_eq_nil_iff.mpr
    intro s hs
    have : fsIsDir fs1 s = true := by
      unfold fsIsDir
      rw [hentry_pres s hs]
      have := hsrcdirs s hs
      unfold fsIsDir at this
      exact this
    simp [this]
  -- the key list only grew inside the destination subtree
  obtain ⟨-, -, -, hkeys0ex, -⟩ := overlay_fs0_facts hd hdest0
  obtain ⟨n0, hkeys0, hpfx0⟩ := hkeys0ex
  have hitems_ne : ∀ it ∈ buildTable fs sources ignore, it.1 ≠ [] :=
    fun it hit => (TableGood_mem htable it hit).1
  obtain ⟨n1, hkeys1, hpfx1⟩ := materialize_keys hitems_ne hmat
  have hkeysall : fsKeys fs1 = fsKeys fs ++ (n0 ++ n1) := by
    rw [hkeys1, hkeys0, List.append_assoc]
  have hnews : ∀ s ∈ sources, ∀ k ∈ n0 ++ n1, ¬ s <+: k := by
    intro s hs k hk hcon
    rcases List.mem_append.mp hk with h1 | h1
    · exact (hdisj s hs).2 (hcon.trans (hpfx0 k h1))
    · rcases pfx_comparable hcon (hpfx1 k h1) with h2 | h2
      · exact (hdisj s hs).2 h2
      · exact (hdisj s hs).1 h2
  have htbl_eq : buildTable fs1 sources ignore = buildTable fs sources ignore :=
    buildTable_congr (fun s hs =>
      srcEntries_eq_of_keys hkeysall (hnews s hs))
  -- the destination is a directory afterwards
  have hex1 : fsExists fs1 destination = true := by
    unfold fsExists
    rw [hdest1]
    rfl
  have hdir1 : fsIsDir fs1 destination = true := by
    unfold fsIsDir
    rw [hdest1]
  -- replaying the copy loop leaves the merged state unchanged
  have hrep := @mat_replay fs0 destination (buildTable fs sources ignore)
    [] fs0 fs1 htable (by simp) (by simp) hinv0 hmat
  -- assemble the second call
  simp only [overlay_directories]
  rw [if_neg (not_not_intro hsrcok1)]
  have hdc : (fsExists fs1 destination && !(fsIsDir fs1 destination)) = false := by
    rw [hdir1]
    simp
  rw [hdc]
  simp only [Bool.false_eq_true, if_false]
  rw [if_pos hex1, htbl_eq]
  exact hrep

/-- Witness for C5: re-merging the already-merged example is a no-op. -/
theorem C5_witness :
    overlay_directories c1Result [c1A, c1B] c1D [] = Except.ok c1Result :=
  C5_merge_idempotent c1fs c1Result [c1A, c1B] c1D [] (by decide)
    (by unfold disjointFrom; decide) (cleanDest_of_keys (by decide))
    (by decide)
